import Mathlib

/-!
Verification of the trellobackup backup script (src/trellobackup/trellobackup.py)
against its natural-language specification.

Strings are modelled as `List Char` (`Str`), filesystem paths both as raw
strings (the form the Python code manipulates) and as lists of path segments
(the result of splitting on the separator character).  Every definition is a
shallow embedding of the correspondingly named Python function; deviations and
spec-modelled parts are noted in the doc comments.
-/

namespace Trellobackup

/-- Strings of the script, modelled as lists of characters. -/
abbrev Str := List Char

/-- Shorthand turning a Lean string literal into the `List Char` model. -/
def str (s : String) : Str := s.data

/-- The substitution performed by `f.replace('/', '-')` in `normpath`. -/
def slashFix (s : Str) : Str := s.map (fun c => if c = '/' then '-' else c)

/-- The substitution performed by `full_path.replace(' ', '_')` in `normpath`. -/
def spaceFix (s : Str) : Str := s.map (fun c => if c = ' ' then '_' else c)

/-- One step of `posixpath.join`: append a single component `b` to `p`,
mirroring CPython (`if b.startswith('/'): path = b; elif path == '' or
path.endswith('/'): path += b; else: path += '/' + b`). -/
def joinOne (p b : Str) : Str :=
  if b.head? = some '/' then b
  else if p = [] ∨ p.getLast? = some '/' then p ++ b
  else p ++ '/' :: b

/-- Model of `os.path.join(path, *frags)` on POSIX. -/
def pyJoin (p : Str) (frags : List Str) : Str := frags.foldl joinOne p

/-- Model of `normpath(*fragments)` from the source: replace `/` with `-` in each
fragment, join the fragments under the configured root, then replace every
space in the whole joined path (root included) with `_`. -/
def normpath (root : Str) (frags : List Str) : Str :=
  spaceFix (pyJoin root (frags.map slashFix))

/-- Split a string at every occurrence of the character `sep`
(the semantics of `str.split(sep)`; used to talk about path segments). -/
def splitC (sep : Char) : Str → List Str
  | [] => [[]]
  | c :: rest =>
      if c = sep then [] :: splitC sep rest
      else match splitC sep rest with
           | [] => [[c]]
           | s :: ss => (c :: s) :: ss

-- Basic facts about the path-string model.

theorem splitC_ne_nil (sep : Char) (s : Str) : splitC sep s ≠ [] := by
  induction s with
  | nil => simp [splitC]
  | cons c rest ih =>
      by_cases h : c = sep
      · simp [splitC, h]
      · simp only [splitC, if_neg h]
        cases hs : splitC sep rest with
        | nil => simp
        | cons a as => simp

theorem splitC_append_sep (sep : Char) (a b : Str) (ha : sep ∉ a) :
    splitC sep (a ++ sep :: b) = a :: splitC sep b := by
  induction a with
  | nil => simp [splitC]
  | cons c rest ih =>
      have hc : c ≠ sep := by
        intro h; exact ha (by simp [h])
      have hrest : sep ∉ rest := fun h => ha (List.mem_cons_of_mem _ h)
      simp only [List.cons_append, splitC, if_neg hc]
      rw [show (rest.append (sep :: b)) = rest ++ sep :: b from rfl, ih hrest]

theorem splitC_no_sep (sep : Char) (a : Str) (ha : sep ∉ a) :
    splitC sep a = [a] := by
  induction a with
  | nil => rfl
  | cons c rest ih =>
      have hc : c ≠ sep := by
        intro h; exact ha (by simp [h])
      have hrest : sep ∉ rest := fun h => ha (List.mem_cons_of_mem _ h)
      simp [splitC, if_neg hc, ih hrest]

theorem spaceFix_append (a b : Str) : spaceFix (a ++ b) = spaceFix a ++ spaceFix b := by
  simp [spaceFix]

theorem spaceFix_no_space (s : Str) : ' ' ∉ spaceFix s := by
  intro h
  simp only [spaceFix, List.mem_map] at h
  obtain ⟨c, _, hc⟩ := h
  by_cases h' : c = ' ' <;> simp [h'] at hc

theorem slashFix_no_slash (s : Str) : '/' ∉ slashFix s := by
  intro h
  simp only [slashFix, List.mem_map] at h
  obtain ⟨c, _, hc⟩ := h
  by_cases h' : c = '/' <;> simp [h'] at hc

theorem spaceFix_no_slash (s : Str) (h : '/' ∉ s) : '/' ∉ spaceFix s := by
  intro hmem
  simp only [spaceFix, List.mem_map] at hmem
  obtain ⟨c, hc, hceq⟩ := hmem
  by_cases h' : c = ' '
  · simp [h'] at hceq
  · simp only [if_neg h'] at hceq
    exact h (hceq ▸ hc)

theorem getLast?_ne_of_not_mem (l : List Char) (x : Char) (h : x ∉ l) :
    l.getLast? ≠ some x := by
  intro heq
  obtain ⟨hne, hx⟩ := List.mem_getLast?_eq_getLast (show x ∈ l.getLast? from heq)
  exact h (hx ▸ List.getLast_mem hne)

/-- Under a well-formed root (nonempty, not ending in the separator), joining
slash-free nonempty fragments appends `'/' :: fragment` for each fragment. -/
theorem pyJoin_eq_append (root : Str) (frags : List Str)
    (hroot : root ≠ []) (hlast : root.getLast? ≠ some '/')
    (hfrags : ∀ f ∈ frags, f ≠ [] ∧ '/' ∉ f) :
    pyJoin root frags = root ++ (frags.map (fun f => '/' :: f)).flatten := by
  induction frags generalizing root with
  | nil => simp [pyJoin]
  | cons f fs ih =>
      have hf := hfrags f (by simp)
      have hhead : f.head? ≠ some '/' := by
        intro h
        cases f with
        | nil => simp at h
        | cons c cs =>
            simp only [List.head?] at h
            exact hf.2 (by simp [Option.some_inj.mp h])
      have step : joinOne root f = root ++ '/' :: f := by
        simp [joinOne, hhead, hroot, hlast]
      have hne : root ++ '/' :: f ≠ [] := by simp
      have hlast2 : (root ++ '/' :: f).getLast? ≠ some '/' := by
        rw [List.getLast?_append_cons root '/' f]
        cases f with
        | nil => exact absurd rfl hf.1
        | cons c cs =>
            rw [List.getLast?_cons_cons]
            exact getLast?_ne_of_not_mem _ _ hf.2
      calc pyJoin root (f :: fs)
          = pyJoin (root ++ '/' :: f) fs := by simp [pyJoin, step]
        _ = (root ++ '/' :: f) ++ (fs.map (fun g => '/' :: g)).flatten := by
            exact ih (root ++ '/' :: f) hne hlast2
              (fun g hg => hfrags g (List.mem_cons_of_mem _ hg))
        _ = root ++ ((f :: fs).map (fun g => '/' :: g)).flatten := by simp

/-- Splitting the join of slash-free fragments recovers the fragments as
individual path segments after the segments of the root. -/
theorem splitC_root_append (root : Str) (frags : List Str)
    (hfrags : ∀ f ∈ frags, '/' ∉ f) :
    splitC '/' (root ++ (frags.map (fun f => '/' :: f)).flatten) =
      splitC '/' root ++ frags := by
  induction frags generalizing root with
  | nil => simp
  | cons f fs ih =>
      have hf : '/' ∉ f := hfrags f (by simp)
      have step : root ++ ((f :: fs).map (fun g => '/' :: g)).flatten =
          (root ++ '/' :: f) ++ (fs.map (fun g => '/' :: g)).flatten := by
        simp
      rw [step, ih (root ++ '/' :: f) (fun g hg => hfrags g (List.mem_cons_of_mem _ hg))]
      have : splitC '/' (root ++ '/' :: f) = splitC '/' root ++ [f] := by
        have append1 : splitC '/' (root ++ '/' :: f) =
            splitC '/' ((root ++ ['/']) ++ f) := by simp
        -- split root ++ '/' :: f by induction on root
        clear append1
        induction root with
        | nil => simp [splitC, splitC_no_sep '/' f hf]
        | cons c cs ihr =>
            by_cases hc : c = '/'
            · simp [splitC, hc, ihr]
            · simp only [List.cons_append, splitC, if_neg hc, ihr]
              cases hs : splitC '/' (cs ++ '/' :: f) with
              | nil => exact absurd hs (splitC_ne_nil _ _)
              | cons a as =>
                  cases hs2 : splitC '/' cs with
                  | nil => exact absurd hs2 (splitC_ne_nil _ _)
                  | cons b bs => simp_all
      rw [this, List.append_assoc]
      rfl

theorem spaceFix_sep_flatten (gs : List Str) :
    spaceFix ((gs.map (fun f => '/' :: f)).flatten) =
      ((gs.map spaceFix).map (fun f => '/' :: f)).flatten := by
  induction gs with
  | nil => rfl
  | cons g gsr ih =>
      simp only [List.map_cons, List.flatten_cons]
      rw [spaceFix_append, ih]
      simp [spaceFix]

/-- Key decomposition of `normpath`: with a sane root, the produced path splits
into the root segments (space-fixed) followed by one slash-free segment per
fragment. -/
theorem normpath_segments (root : Str) (frags : List Str)
    (hroot : root ≠ []) (hlast : root.getLast? ≠ some '/')
    (hne : ∀ f ∈ frags, f ≠ []) :
    splitC '/' (normpath root frags) =
      splitC '/' (spaceFix root) ++ frags.map (fun f => spaceFix (slashFix f)) := by
  have hfrags : ∀ f ∈ frags.map slashFix, f ≠ [] ∧ '/' ∉ f := by
    intro f hf
    simp only [List.mem_map] at hf
    obtain ⟨g, hg, rfl⟩ := hf
    refine ⟨?_, slashFix_no_slash g⟩
    have := hne g hg
    cases g with
    | nil => exact absurd rfl this
    | cons c cs => simp [slashFix]
  unfold normpath
  rw [pyJoin_eq_append root (frags.map slashFix) hroot hlast hfrags]
  rw [spaceFix_append, spaceFix_sep_flatten (frags.map slashFix)]
  rw [splitC_root_append (spaceFix root) ((frags.map slashFix).map spaceFix) (by
    intro f hf
    simp only [List.mem_map] at hf
    obtain ⟨g, ⟨g0, _, rfl⟩, rfl⟩ := hf
    exact spaceFix_no_slash _ (slashFix_no_slash g0))]
  simp [List.map_map]

theorem pyJoin_exists_append (frags : List Str) :
    ∀ root, (∀ f ∈ frags, f.head? ≠ some '/') →
      ∃ t, pyJoin root frags = root ++ t := by
  induction frags with
  | nil => exact fun root _ => ⟨[], by simp [pyJoin]⟩
  | cons f fs ih =>
      intro root hf
      have step : ∃ u, joinOne root f = root ++ u := by
        unfold joinOne
        rw [if_neg (hf f (by simp))]
        by_cases h : root = [] ∨ root.getLast? = some '/'
        · exact ⟨f, by rw [if_pos h]⟩
        · exact ⟨'/' :: f, by rw [if_neg h]⟩
      obtain ⟨u, hu⟩ := step
      obtain ⟨t, ht⟩ := ih (root ++ u) (fun g hg => hf g (List.mem_cons_of_mem _ hg))
      refine ⟨u ++ t, ?_⟩
      have : pyJoin root (f :: fs) = pyJoin (joinOne root f) fs := by simp [pyJoin]
      rw [this, hu, ht, List.append_assoc]

theorem map_slashFix_head (frags : List Str) :
    ∀ f ∈ frags.map slashFix, f.head? ≠ some '/' := by
  intro f hf
  simp only [List.mem_map] at hf
  obtain ⟨g, _, rfl⟩ := hf
  intro h
  cases g with
  | nil => simp [slashFix] at h
  | cons c cs =>
      have : (slashFix (c :: cs)).head? = some (if c = '/' then '-' else c) := by
        simp [slashFix]
      rw [this] at h
      have := Option.some_inj.mp h
      by_cases hc : c = '/' <;> simp [hc] at this

/-- C3: the Path Normalizer replaces each slash inside a fragment with a dash,
so that each fragment contributes exactly one slash-free path segment; the
produced path contains no space characters; and the function is pure and
deterministic.  The segment decomposition is stated for a root that is
nonempty and does not end in the separator and for nonempty fragments (the
shapes the script ever passes). -/
theorem c3_normpath_sanitization (root : Str) (frags : List Str) :
    (' ' ∉ normpath root frags) ∧
    (root ≠ [] → root.getLast? ≠ some '/' → (∀ f ∈ frags, f ≠ []) →
      splitC '/' (normpath root frags) =
        splitC '/' (spaceFix root) ++ frags.map (fun f => spaceFix (slashFix f)) ∧
      ∀ f ∈ frags, '/' ∉ spaceFix (slashFix f)) ∧
    (∀ frags2, frags = frags2 → normpath root frags = normpath root frags2) := by
  refine ⟨spaceFix_no_space _, fun h1 h2 h3 => ⟨normpath_segments root frags h1 h2 h3, ?_⟩,
    fun _ h => by rw [h]⟩
  intro f _
  exact spaceFix_no_slash _ (slashFix_no_slash f)

/-- Witness for C3 at a concrete root and fragment list containing a slash and
a space. -/
theorem c3_normpath_sanitization_witness :
    (' ' ∉ normpath (str "results") [str "a/b", str "c d"]) ∧
    (splitC '/' (normpath (str "results") [str "a/b", str "c d"]) =
        splitC '/' (spaceFix (str "results")) ++
          [str "a/b", str "c d"].map (fun f => spaceFix (slashFix f)) ∧
      ∀ f ∈ [str "a/b", str "c d"], '/' ∉ spaceFix (slashFix f)) := by
  have h := c3_normpath_sanitization (str "results") [str "a/b", str "c d"]
  exact ⟨h.1, h.2.1 (by decide) (by decide) (by decide)⟩

/-- C10: `normpath` applies the space-to-underscore substitution to the whole
joined path including the configured root, so when the root itself contains a
space the produced path does not lie under the configured root but under the
underscore-rewritten directory. -/
theorem c10_normpath_rewrites_root (root : Str) (frags : List Str)
    (hs : ' ' ∈ root) :
    (¬ ∃ rest, normpath root frags = root ++ rest) ∧
    (∃ rest, normpath root frags = spaceFix root ++ rest) := by
  obtain ⟨t, ht⟩ := pyJoin_exists_append (frags.map slashFix) root (map_slashFix_head frags)
  have hform : normpath root frags = spaceFix root ++ spaceFix t := by
    unfold normpath
    rw [ht, spaceFix_append]
  constructor
  · rintro ⟨rest, hrest⟩
    rw [hform] at hrest
    have hlen : (spaceFix root).length = root.length := by simp [spaceFix]
    have : spaceFix root = root := List.append_inj_left hrest hlen
    exact spaceFix_no_space root (by rw [this]; exact hs)
  · exact ⟨spaceFix t, hform⟩

/-- Witness for C10 at a root containing a space. -/
theorem c10_normpath_rewrites_root_witness :
    (¬ ∃ rest, normpath (str "my results") [str "current"] =
        str "my results" ++ rest) ∧
    (∃ rest, normpath (str "my results") [str "current"] =
        spaceFix (str "my results") ++ rest) :=
  c10_normpath_rewrites_root (str "my results") [str "current"] (by decide)

/-! ## Filesystem model

The working tree is modelled as an association list from segment paths to
entries.  Keys are the `'/'`-split segments of the full path strings the
Python code manipulates. -/

/-- A filesystem entry: a directory, a regular file with contents, or a
symbolic link storing its (relative) target string. -/
inductive FEntry : Type where
  | dir : FEntry
  | file : Str → FEntry
  | symlink : Str → FEntry
deriving DecidableEq

/-- A path as a list of segments. -/
abbrev SPath := List Str

/-- The filesystem: an association list from segment paths to entries. -/
abbrev FS := List (SPath × FEntry)

/-- First-match association lookup (the model of `os.path.exists` and of
reading an entry). -/
def fsLookup : FS → SPath → Option FEntry
  | [], _ => none
  | (k, e) :: rest, q => if k = q then some e else fsLookup rest q

/-- Boolean test that `a` is a (not necessarily proper) leading segment list
of `q`. -/
def segLeB : SPath → SPath → Bool
  | [], _ => true
  | _ :: _, [] => false
  | a :: as, b :: bs => decide (a = b) && segLeB as bs

/-- Propositional version of `segLeB`. -/
def SegLe (a q : SPath) : Prop := ∃ r, q = a ++ r

theorem segLeB_iff (a q : SPath) : segLeB a q = true ↔ SegLe a q := by
  induction a generalizing q with
  | nil => simp [segLeB, SegLe]
  | cons x as ih =>
      cases q with
      | nil =>
          simp only [segLeB, SegLe]
          constructor
          · intro h; cases h
          · rintro ⟨r, hr⟩; cases hr
      | cons y bs =>
          simp only [segLeB, Bool.and_eq_true, decide_eq_true_eq, ih, SegLe]
          constructor
          · rintro ⟨rfl, r, rfl⟩; exact ⟨r, rfl⟩
          · rintro ⟨r, hr⟩
            injection hr with h1 h2
            exact ⟨h1.symm, r, h2⟩

theorem SegLe.refl (a : SPath) : SegLe a a := ⟨[], by simp⟩

theorem segLe_cancel (x u v : SPath) : SegLe (x ++ u) (x ++ v) ↔ SegLe u v := by
  constructor
  · rintro ⟨r, hr⟩
    rw [List.append_assoc] at hr
    exact ⟨r, List.append_cancel_left hr⟩
  · rintro ⟨r, hr⟩
    exact ⟨r, by rw [hr, List.append_assoc]⟩

theorem segLe_total_of_common (q : SPath) :
    ∀ a b, SegLe a q → SegLe b q → SegLe a b ∨ SegLe b a := by
  induction q with
  | nil =>
      rintro a b ⟨r, hr⟩ _
      have ha : a = [] := by
        cases a with
        | nil => rfl
        | cons x as => simp at hr
      subst ha
      exact Or.inl ⟨b, rfl⟩
  | cons x qs ih =>
      rintro a b ha hb
      cases a with
      | nil => exact Or.inl ⟨b, rfl⟩
      | cons ya as =>
          cases b with
          | nil => exact Or.inr ⟨ya :: as, rfl⟩
          | cons yb bs =>
              obtain ⟨r, hr⟩ := ha
              injection hr with h1 h2
              obtain ⟨s, hs⟩ := hb
              injection hs with h3 h4
              subst h1
              subst h3
              rcases ih as bs ⟨r, h2⟩ ⟨s, h4⟩ with h | h
              · obtain ⟨t, ht⟩ := h
                exact Or.inl ⟨t, by simp [ht]⟩
              · obtain ⟨t, ht⟩ := h
                exact Or.inr ⟨t, by simp [ht]⟩

theorem segLe_antisymm (a b : SPath) (hab : SegLe a b) (hba : SegLe b a) : a = b := by
  obtain ⟨r, hr⟩ := hab
  obtain ⟨s, hs⟩ := hba
  have hlen : b.length = a.length + r.length := by rw [hr]; simp
  have hlen2 : a.length = b.length + s.length := by rw [hs]; simp
  have : r.length = 0 := by omega
  have hr0 : r = [] := List.length_eq_zero.mp this
  rw [hr, hr0, List.append_nil]

theorem segLeB_self (t : SPath) : segLeB t t = true :=
  (segLeB_iff t t).mpr (SegLe.refl t)

theorem segLeB_false_of_not (a q : SPath) (h : ¬ SegLe a q) : segLeB a q = false := by
  cases hb : segLeB a q with
  | false => rfl
  | true => exact absurd ((segLeB_iff a q).mp hb) h

/-- The proper nonempty leading-segment prefixes of a path, shortest first
(the ancestor directories `os.makedirs` walks). -/
def properPrefixes (t : SPath) : List SPath :=
  (List.range (t.length - 1)).map (fun i => t.take (i + 1))

theorem mem_properPrefixes_iff (a t : SPath) :
    a ∈ properPrefixes t ↔ SegLe a t ∧ a ≠ t ∧ a ≠ [] := by
  constructor
  · intro h
    simp only [properPrefixes, List.mem_map, List.mem_range] at h
    obtain ⟨i, hi, rfl⟩ := h
    have hlen : (t.take (i + 1)).length = i + 1 := by
      rw [List.length_take]
      omega
    refine ⟨⟨t.drop (i + 1), (List.take_append_drop (i + 1) t).symm⟩, ?_, ?_⟩
    · intro h
      have := congrArg List.length h
      rw [hlen] at this
      omega
    · intro h
      have := congrArg List.length h
      rw [hlen] at this
      simp at this
  · rintro ⟨⟨r, rfl⟩, hne, hnil⟩
    simp only [properPrefixes, List.mem_map, List.mem_range]
    have h1 : 1 ≤ a.length := by
      cases a with
      | nil => exact absurd rfl hnil
      | cons x xs => simp
    have h2 : r ≠ [] := by
      rintro rfl
      exact hne (by simp)
    have h3 : 1 ≤ r.length := by
      cases r with
      | nil => exact absurd rfl h2
      | cons x xs => simp
    refine ⟨a.length - 1, by simp; omega, ?_⟩
    have : a.length - 1 + 1 = a.length := by omega
    rw [this, List.take_left]

theorem fsLookup_mem (fs : FS) (q : SPath) (e : FEntry) (h : fsLookup fs q = some e) :
    (q, e) ∈ fs := by
  induction fs with
  | nil => simp [fsLookup] at h
  | cons p rest ih =>
      obtain ⟨k, e'⟩ := p
      by_cases hk : k = q
      · subst hk
        simp only [fsLookup, if_pos rfl] at h
        injection h with h
        subst h
        exact List.mem_cons_self _ _
      · simp only [fsLookup, if_neg hk] at h
        exact List.mem_cons_of_mem _ (ih h)

theorem fsLookup_isSome_of_mem (fs : FS) (q : SPath) (e : FEntry) (h : (q, e) ∈ fs) :
    (fsLookup fs q).isSome = true := by
  induction fs with
  | nil => simp at h
  | cons p rest ih =>
      rcases List.mem_cons.mp h with h' | h'
      · rw [← h']
        simp [fsLookup]
      · obtain ⟨k, e'⟩ := p
        by_cases hk : k = q
        · simp [fsLookup, hk]
        · simp only [fsLookup, if_neg hk]
          exact ih h'

theorem fsLookup_eq_none_iff (fs : FS) (q : SPath) :
    fsLookup fs q = none ↔ ∀ e, (q, e) ∉ fs := by
  constructor
  · intro h e hmem
    have := fsLookup_isSome_of_mem fs q e hmem
    rw [h] at this
    simp at this
  · intro h
    cases he : fsLookup fs q with
    | none => rfl
    | some e => exact absurd (fsLookup_mem fs q e he) (h e)

theorem fsLookup_append (xs ys : FS) (q : SPath) :
    fsLookup (xs ++ ys) q =
      match fsLookup xs q with
      | some e => some e
      | none => fsLookup ys q := by
  induction xs with
  | nil => simp [fsLookup]
  | cons p rest ih =>
      obtain ⟨k, e⟩ := p
      by_cases hk : k = q
      · simp [fsLookup, hk]
      · simp only [List.cons_append, fsLookup, if_neg hk]
        exact ih

theorem fsLookup_filterKey (g : SPath → Bool) (fs : FS) (q : SPath) :
    fsLookup (fs.filter (fun p => g p.1)) q =
      if g q then fsLookup fs q else none := by
  induction fs with
  | nil => simp [fsLookup]
  | cons p rest ih =>
      obtain ⟨k, e⟩ := p
      by_cases hk : k = q
      · subst hk
        by_cases hg : g k
        · rw [List.filter_cons_of_pos (by simpa using hg)]
          simp [fsLookup, hg]
        · rw [List.filter_cons_of_neg (by simpa using hg)]
          rw [ih]
          simp [hg]
      · have hstep : fsLookup ((k, e) :: rest) q = fsLookup rest q := by
          simp [fsLookup, hk]
        by_cases hg : g k
        · rw [List.filter_cons_of_pos (by simpa using hg)]
          simp only [fsLookup, if_neg hk]
          exact ih
        · rw [List.filter_cons_of_neg (by simpa using hg), hstep]
          exact ih

theorem fsLookup_dirsList (l : List SPath) (q : SPath) (h : q ∉ l) :
    fsLookup (l.map (fun a => (a, FEntry.dir))) q = none := by
  induction l with
  | nil => rfl
  | cons a rest ih =>
      have ha : a ≠ q := by
        intro hq
        exact h (hq ▸ List.mem_cons_self a rest)
      simp only [List.map_cons, fsLookup, if_neg ha]
      exact ih (fun hq => h (List.mem_cons_of_mem _ hq))

theorem fsLookup_dirsList_mem (l : List SPath) (q : SPath) (h : q ∈ l) :
    fsLookup (l.map (fun a => (a, FEntry.dir))) q = some FEntry.dir := by
  induction l with
  | nil => simp at h
  | cons a rest ih =>
      by_cases ha : a = q
      · simp [fsLookup, ha]
      · simp only [List.map_cons, fsLookup, if_neg ha]
        exact ih (by
          rcases List.mem_cons.mp h with h' | h'
          · exact absurd h'.symm ha
          · exact h')

/-- Entry state acceptable for an intermediate `os.makedirs` step: either
missing (will be created) or already a directory. -/
def entryOkDir : Option FEntry → Bool
  | none => true
  | some FEntry.dir => true
  | some _ => false

/-- Model of `os.makedirs(t)`: create every missing ancestor directory, then
the target itself; fail when an ancestor exists as a non-directory (the
`ENOTDIR` failure of the final `mkdir` steps).  The caller guarantees the
target itself does not exist. -/
def makedirsSegs (fs : FS) (t : SPath) : Option FS :=
  if (properPrefixes t).all (fun a => entryOkDir (fsLookup fs a)) then
    some (fs ++
      ((properPrefixes t).filter (fun a => (fsLookup fs a).isNone)).map
        (fun a => (a, FEntry.dir)) ++ [(t, FEntry.dir)])
  else none

/-- Model of the script's `mkdir` helper applied to an already normalised
path: no-op when the path exists, `os.makedirs` otherwise. -/
def mkdirSegs (fs : FS) (t : SPath) : Option FS :=
  if (fsLookup fs t).isSome then some fs else makedirsSegs fs t

/-- Model of `wipe_dir` applied to an already normalised path: if the target
exists, remove it together with its whole subtree (`rm -r`), then re-create it
through the `mkdir` helper. -/
def wipeSegs (fs : FS) (t : SPath) : Option FS :=
  mkdirSegs (if (fsLookup fs t).isSome then
               fs.filter (fun p => !(segLeB t p.1))
             else fs) t

/-- Model of `mkdir(*path)` from the source: normalise the fragments and create the
directory if absent. -/
def mkdirPath (root : Str) (frags : List Str) (fs : FS) : Option FS :=
  mkdirSegs fs (splitC '/' (normpath root frags))

/-- Model of `wipe_dir(*dirpath)` from the source: normalise the fragments, remove the
tree if present, and re-create the directory. -/
def wipeDir (root : Str) (frags : List Str) (fs : FS) : Option FS :=
  wipeSegs fs (splitC '/' (normpath root frags))

/-- Real-filesystem well-formedness: every ancestor of an existing entry is a
directory. -/
def WF (fs : FS) : Prop :=
  ∀ p ∈ fs, ∀ a ∈ properPrefixes p.1, fsLookup fs a = some FEntry.dir

/-- The ancestors of the wipe target are not regular files or links, so the
`os.makedirs` chain can succeed. -/
def AncOk (fs : FS) (t : SPath) : Prop :=
  ∀ a ∈ properPrefixes t, entryOkDir (fsLookup fs a) = true

instance (fs : FS) : Decidable (WF fs) := by
  unfold WF
  infer_instance

instance (fs : FS) (t : SPath) : Decidable (AncOk fs t) := by
  unfold AncOk
  infer_instance

theorem wipeSegs_idem (fs : FS) (t : SPath) (ht : t ≠ [])
    (hwf : WF fs) (hanc : AncOk fs t) :
    ∃ fs₁, wipeSegs fs t = some fs₁ ∧
      fsLookup fs₁ t = some FEntry.dir ∧
      (∀ q, SegLe t q → q ≠ t → fsLookup fs₁ q = none) ∧
      wipeSegs fs₁ t = some fs₁ := by
  classical
  set fs0 : FS := if (fsLookup fs t).isSome then
      fs.filter (fun p => !(segLeB t p.1)) else fs with hfs0
  have claimA : ∀ a, ¬ SegLe t a → fsLookup fs0 a = fsLookup fs a := by
    intro a hna
    rw [hfs0]
    by_cases h : (fsLookup fs t).isSome
    · rw [if_pos h, fsLookup_filterKey (fun k => !(segLeB t k)) fs a]
      rw [segLeB_false_of_not t a hna]
      simp
    · rw [if_neg h]
  have claimC : ∀ q, SegLe t q → fsLookup fs0 q = none := by
    intro q hq
    rw [hfs0]
    by_cases h : (fsLookup fs t).isSome
    · rw [if_pos h, fsLookup_filterKey (fun k => !(segLeB t k)) fs q]
      rw [(segLeB_iff t q).mpr hq]
      simp
    · rw [if_neg h]
      have hnone : fsLookup fs t = none := by
        cases hl : fsLookup fs t with
        | none => rfl
        | some e => rw [hl] at h; simp at h
      by_cases hqt : q = t
      · rw [hqt]; exact hnone
      · cases hl : fsLookup fs q with
        | none => rfl
        | some e =>
            have hmem := fsLookup_mem fs q e hl
            have hpre : t ∈ properPrefixes q :=
              (mem_properPrefixes_iff t q).mpr ⟨hq, fun h' => hqt h'.symm, ht⟩
            have := hwf (q, e) hmem t hpre
            rw [hnone] at this
            cases this
  have claimB : fsLookup fs0 t = none := claimC t (SegLe.refl t)
  have hall : (properPrefixes t).all (fun a => entryOkDir (fsLookup fs0 a)) = true := by
    rw [List.all_eq_true]
    intro a ha
    obtain ⟨hle, hne, hnil⟩ := (mem_properPrefixes_iff a t).mp ha
    have hnta : ¬ SegLe t a := by
      intro h
      exact hne (segLe_antisymm a t hle h)
    rw [claimA a hnta]
    exact hanc a ha
  set newdirs : FS := ((properPrefixes t).filter
      (fun a => (fsLookup fs0 a).isNone)).map (fun a => (a, FEntry.dir)) with hnd
  set fs₁ : FS := fs0 ++ newdirs ++ [(t, FEntry.dir)] with hfs1
  have hrun : wipeSegs fs t = some fs₁ := by
    unfold wipeSegs mkdirSegs
    rw [← hfs0]
    rw [if_neg (by rw [claimB]; simp)]
    unfold makedirsSegs
    rw [if_pos hall]
  have hlook_pre : ∀ a, a ∈ (properPrefixes t).filter
      (fun x => (fsLookup fs0 x).isNone) → SegLe a t ∧ a ≠ t := by
    intro a ha
    have := List.mem_filter.mp ha
    obtain ⟨hle, hne, _⟩ := (mem_properPrefixes_iff a t).mp this.1
    exact ⟨hle, hne⟩
  have hnd_t : fsLookup newdirs t = none := by
    rw [hnd]
    refine fsLookup_dirsList _ t ?_
    intro hmem
    exact (hlook_pre t hmem).2 rfl
  have hlook_t : fsLookup fs₁ t = some FEntry.dir := by
    rw [hfs1, fsLookup_append, fsLookup_append, claimB, hnd_t]
    simp [fsLookup]
  have hempty : ∀ q, SegLe t q → q ≠ t → fsLookup fs₁ q = none := by
    intro q hq hqt
    have hnd_q : fsLookup newdirs q = none := by
      rw [hnd]
      refine fsLookup_dirsList _ q ?_
      intro hmem
      obtain ⟨hle, hne⟩ := hlook_pre q hmem
      exact hqt (segLe_antisymm q t hle hq)
    rw [hfs1, fsLookup_append, fsLookup_append, claimC q hq, hnd_q]
    simp only [fsLookup]
    rw [if_neg (fun h => hqt h.symm)]
  -- second run
  have hfilter1 : fs₁.filter (fun p => !(segLeB t p.1)) = fs0 ++ newdirs := by
    rw [hfs1, List.filter_append, List.filter_append]
    have h0 : fs0.filter (fun p => !(segLeB t p.1)) = fs0 := by
      rw [List.filter_eq_self]
      intro p hp
      obtain ⟨k, e⟩ := p
      cases hb : segLeB t k with
      | false => simp
      | true =>
          have hle := (segLeB_iff t k).mp hb
          have := fsLookup_isSome_of_mem fs0 k e hp
          rw [claimC k hle] at this
          cases this
    have h1 : newdirs.filter (fun p => !(segLeB t p.1)) = newdirs := by
      rw [List.filter_eq_self]
      intro p hp
      rw [hnd] at hp
      obtain ⟨a, ha, rfl⟩ := List.mem_map.mp hp
      obtain ⟨hle, hne⟩ := hlook_pre a ha
      cases hb : segLeB t a with
      | false => simp
      | true =>
          have h := (segLeB_iff t a).mp hb
          exact absurd (segLe_antisymm a t hle h) hne
    have h2 : ([(t, FEntry.dir)] : FS).filter (fun p => !(segLeB t p.1)) = [] := by
      rw [List.filter_cons_of_neg]
      · rfl
      · simp [segLeB_self]
    rw [h0, h1, h2, List.append_nil]
  have hlook1_pref : ∀ a ∈ properPrefixes t,
      fsLookup (fs0 ++ newdirs) a = some FEntry.dir ∨
      (∃ e, fsLookup (fs0 ++ newdirs) a = some e ∧ entryOkDir (some e) = true) := by
    intro a ha
    rw [fsLookup_append]
    cases h0 : fsLookup fs0 a with
    | some e =>
        right
        refine ⟨e, rfl, ?_⟩
        have := (List.all_eq_true.mp hall) a ha
        rw [h0] at this
        exact this
    | none =>
        left
        have hmem : a ∈ (properPrefixes t).filter (fun x => (fsLookup fs0 x).isNone) :=
          List.mem_filter.mpr ⟨ha, by rw [h0]; rfl⟩
        rw [hnd]
        exact fsLookup_dirsList_mem _ a hmem
  have hlookt2 : fsLookup (fs0 ++ newdirs) t = none := by
    rw [fsLookup_append, claimB]
    exact hnd_t
  have hall2 : (properPrefixes t).all
      (fun a => entryOkDir (fsLookup (fs0 ++ newdirs) a)) = true := by
    rw [List.all_eq_true]
    intro a ha
    rcases hlook1_pref a ha with h | ⟨e, he, hok⟩
    · rw [h]; rfl
    · rw [he]; exact hok
  have hmiss : (properPrefixes t).filter
      (fun a => (fsLookup (fs0 ++ newdirs) a).isNone) = [] := by
    rw [List.filter_eq_nil_iff]
    intro a ha
    rcases hlook1_pref a ha with h | ⟨e, he, _⟩
    · rw [h]; simp
    · rw [he]; simp
  have step1 : wipeSegs fs₁ t = mkdirSegs (fs0 ++ newdirs) t := by
    unfold wipeSegs
    rw [hlook_t, hfilter1]
    simp
  have step2 : mkdirSegs (fs0 ++ newdirs) t = makedirsSegs (fs0 ++ newdirs) t := by
    unfold mkdirSegs
    rw [hlookt2]
    simp
  have step3 : makedirsSegs (fs0 ++ newdirs) t = some fs₁ := by
    unfold makedirsSegs
    rw [if_pos hall2, hmiss]
    rw [hfs1]
    simp
  exact ⟨fs₁, hrun, hlook_t, hempty, by rw [step1, step2, step3]⟩

/-- C8: for any logical path, in a well-formed filesystem state whose
ancestors of the target are not regular files, calling `wipe_dir` twice in a
row succeeds both times, after each call the target directory exists and is
empty, and the second call leaves exactly the state of the first (wipe is
idempotent and raises no error). -/
theorem c8_wipe_idempotent (root : Str) (frags : List Str) (fs : FS)
    (hwf : WF fs) (hanc : AncOk fs (splitC '/' (normpath root frags))) :
    ∃ fs₁, wipeDir root frags fs = some fs₁ ∧
      fsLookup fs₁ (splitC '/' (normpath root frags)) = some FEntry.dir ∧
      (∀ q, SegLe (splitC '/' (normpath root frags)) q →
        q ≠ splitC '/' (normpath root frags) → fsLookup fs₁ q = none) ∧
      wipeDir root frags fs₁ = some fs₁ :=
  wipeSegs_idem fs (splitC '/' (normpath root frags))
    (splitC_ne_nil '/' _) hwf hanc

/-- Witness for C8: wiping `current/board` twice inside a root that only
contains the results directory. -/
theorem c8_wipe_idempotent_witness :
    ∃ fs₁, wipeDir (str "results") [str "current", str "board"]
        [([str "results"], FEntry.dir)] = some fs₁ ∧
      fsLookup fs₁ (splitC '/' (normpath (str "results")
        [str "current", str "board"])) = some FEntry.dir ∧
      (∀ q, SegLe (splitC '/' (normpath (str "results")
          [str "current", str "board"])) q →
        q ≠ splitC '/' (normpath (str "results") [str "current", str "board"]) →
        fsLookup fs₁ q = none) ∧
      wipeDir (str "results") [str "current", str "board"] fs₁ = some fs₁ :=
  c8_wipe_idempotent (str "results") [str "current", str "board"]
    [([str "results"], FEntry.dir)] (by decide) (by decide)

/-! ## Structured serialization (claim C5)

Modelled from the spec: the script serializes the shaped dictionary with the
external `yaml` library (`toyaml` wraps `yaml.safe_dump`, reading back uses
`yaml.safe_load`).  The spec's contract for this external collaborator is a
direct, lossless serialization of the shaped dictionary that round-trips.
`Value` is the payload type of such dictionaries; `ser` is the serializer and
`parseV`/`loadV` the deserializer. -/

/-- A serializable value: null, boolean, integer, string, sequence, mapping. -/
inductive Value : Type where
  | vnull : Value
  | vbool : Bool → Value
  | vint : Int → Value
  | vstr : Str → Value
  | vlist : List Value → Value
  | vmap : List (Str × Value) → Value

/-- Opening brace character. -/
def lbr : Char := Char.ofNat 123

/-- Closing brace character. -/
def rbr : Char := Char.ofNat 125

def digitChar : Nat → Char
  | 0 => '0'
  | 1 => '1'
  | 2 => '2'
  | 3 => '3'
  | 4 => '4'
  | 5 => '5'
  | 6 => '6'
  | 7 => '7'
  | 8 => '8'
  | _ => '9'

def digitVal (c : Char) : Nat :=
  if c = '0' then 0 else if c = '1' then 1 else if c = '2' then 2
  else if c = '3' then 3 else if c = '4' then 4 else if c = '5' then 5
  else if c = '6' then 6 else if c = '7' then 7 else if c = '8' then 8 else 9

def isDigitC (c : Char) : Bool :=
  c = '0' || c = '1' || c = '2' || c = '3' || c = '4' ||
  c = '5' || c = '6' || c = '7' || c = '8' || c = '9'

/-- Decimal digits of a natural number, most significant first. -/
def natDigits (n : Nat) : Str :=
  if _h : n < 10 then [digitChar n]
  else natDigits (n / 10) ++ [digitChar (n % 10)]
decreasing_by exact Nat.div_lt_self (by omega) (by omega)

/-- Decimal rendering of an integer. -/
def intStr (n : Int) : Str :=
  if n < 0 then '-' :: natDigits n.natAbs else natDigits n.toNat

/-- Escape quotes and backslashes inside a serialized string. -/
def escStr : Str → Str
  | [] => []
  | c :: rest =>
      if c = '"' || c = '\\' then '\\' :: c :: escStr rest
      else c :: escStr rest

mutual

/-- Serialize a value (flow-style form). -/
def ser : Value → Str
  | Value.vnull => str "null"
  | Value.vbool true => str "true"
  | Value.vbool false => str "false"
  | Value.vint n => intStr n
  | Value.vstr s => '"' :: (escStr s ++ ['"'])
  | Value.vlist l => '[' :: serL l
  | Value.vmap m => lbr :: serM m

/-- Serialize the elements of a sequence, including the closing bracket. -/
def serL : List Value → Str
  | [] => [']']
  | [v] => ser v ++ [']']
  | v :: vs => ser v ++ ',' :: serL vs

/-- Serialize the entries of a mapping, including the closing brace. -/
def serM : List (Str × Value) → Str
  | [] => [rbr]
  | [(k, v)] => '"' :: (escStr k ++ '"' :: ':' :: (ser v ++ [rbr]))
  | (k, v) :: kvs => '"' :: (escStr k ++ '"' :: ':' :: (ser v ++ ',' :: serM kvs))

end

/-- Consume an expected literal from the input. -/
def expectLit : Str → Str → Option Str
  | [], rest => some rest
  | _ :: _, [] => none
  | c :: cs, d :: rest => if d = c then expectLit cs rest else none

/-- Parse the body of a quoted string after the opening quote. -/
def parseStrBody : Str → Option (Str × Str)
  | [] => none
  | c :: rest =>
      if c = '\\' then
        match rest with
        | [] => none
        | d :: r2 =>
            match parseStrBody r2 with
            | some (s, r) => some (d :: s, r)
            | none => none
      else if c = '"' then some ([], rest)
      else
        match parseStrBody rest with
        | some (s, r) => some (c :: s, r)
        | none => none

/-- Parse a maximal run of decimal digits. -/
def parseNat (s : Str) : Option (Nat × Str) :=
  let ds := s.takeWhile (fun c => isDigitC c)
  if ds = [] then none
  else some (ds.foldl (fun a c => 10 * a + digitVal c) 0,
             s.dropWhile (fun c => isDigitC c))

mutual

/-- Fuel-indexed value parser. -/
def parseV : Nat → Str → Option (Value × Str)
  | 0, _ => none
  | Nat.succ _, [] => none
  | Nat.succ f, c :: rest =>
      if c = 'n' then (expectLit (str "ull") rest).map (fun r => (Value.vnull, r))
      else if c = 't' then
        (expectLit (str "rue") rest).map (fun r => (Value.vbool true, r))
      else if c = 'f' then
        (expectLit (str "alse") rest).map (fun r => (Value.vbool false, r))
      else if c = '"' then
        (parseStrBody rest).map (fun p => (Value.vstr p.1, p.2))
      else if c = '[' then parseVBracket f rest
      else if c = lbr then parseVBrace f rest
      else if c = '-' then
        (parseNat rest).map (fun p => (Value.vint (-(p.1 : Int)), p.2))
      else if isDigitC c then
        (parseNat (c :: rest)).map (fun p => (Value.vint (p.1 : Int), p.2))
      else none
termination_by f _ => (f, 0)

/-- Continuation after an opening bracket. -/
def parseVBracket : Nat → Str → Option (Value × Str)
  | _, [] => none
  | f, d :: r2 =>
      if d = ']' then some (Value.vlist [], r2)
      else (parseVs f (d :: r2)).map (fun p => (Value.vlist p.1, p.2))
termination_by f _ => (f, 1)

/-- Continuation after an opening brace. -/
def parseVBrace : Nat → Str → Option (Value × Str)
  | _, [] => none
  | f, d :: r2 =>
      if d = rbr then some (Value.vmap [], r2)
      else (parseKVs f (d :: r2)).map (fun p => (Value.vmap p.1, p.2))
termination_by f _ => (f, 1)

/-- Fuel-indexed parser for nonempty sequence tails (elements separated by
commas, terminated by the closing bracket). -/
def parseVs : Nat → Str → Option (List Value × Str)
  | 0, _ => none
  | Nat.succ f, input => (parseV f input).bind (fun vr => parseVsTail f vr.1 vr.2)
termination_by f _ => (f, 0)

/-- Continuation after one sequence element. -/
def parseVsTail (f : Nat) (v : Value) : Str → Option (List Value × Str)
  | [] => none
  | c :: r2 =>
      if c = ',' then (parseVs f r2).map (fun p => (v :: p.1, p.2))
      else if c = ']' then some ([v], r2)
      else none
termination_by _ => (f, 1)

/-- Fuel-indexed parser for nonempty mapping tails. -/
def parseKVs : Nat → Str → Option (List (Str × Value) × Str)
  | 0, _ => none
  | Nat.succ _, [] => none
  | Nat.succ f, c :: rest =>
      if c = '"' then (parseStrBody rest).bind (fun kr => parseKVsKey f kr.1 kr.2)
      else none
termination_by f _ => (f, 0)

/-- Continuation after a parsed mapping key. -/
def parseKVsKey (f : Nat) (k : Str) : Str → Option (List (Str × Value) × Str)
  | [] => none
  | c2 :: r2 =>
      if c2 = ':' then (parseV f r2).bind (fun vr => parseKVsTail f k vr.1 vr.2)
      else none
termination_by _ => (f, 2)

/-- Continuation after one mapping entry. -/
def parseKVsTail (f : Nat) (k : Str) (v : Value) : Str → Option (List (Str × Value) × Str)
  | [] => none
  | c3 :: r4 =>
      if c3 = ',' then (parseKVs f r4).map (fun p => ((k, v) :: p.1, p.2))
      else if c3 = rbr then some ([(k, v)], r4)
      else none
termination_by _ => (f, 1)

end

mutual

/-- Fuel measure of a value: enough fuel for the parser call tree. -/
def wV : Value → Nat
  | Value.vnull => 1
  | Value.vbool _ => 1
  | Value.vint _ => 1
  | Value.vstr _ => 1
  | Value.vlist l => wL l + 1
  | Value.vmap m => wM m + 1

/-- Fuel measure of a sequence tail. -/
def wL : List Value → Nat
  | [] => 1
  | v :: vs => max (wV v) (wL vs) + 1

/-- Fuel measure of a mapping tail. -/
def wM : List (Str × Value) → Nat
  | [] => 1
  | (_, v) :: kvs => max (wV v) (wM kvs) + 1

end

/-- Deserializer: parse with fuel derived from the input length and demand
that the whole input is consumed (`yaml.safe_load` of a dumped document). -/
def loadV (s : Str) : Option Value :=
  match parseV (s.length + 1) s with
  | some (v, []) => some v
  | _ => none

theorem expectLit_self : ∀ (lit rest : Str), expectLit lit (lit ++ rest) = some rest
  | [], rest => rfl
  | c :: cs, rest => by
      simp only [List.cons_append, expectLit, if_pos rfl]
      exact expectLit_self cs rest

theorem parseStrBody_esc : ∀ (s rest : Str),
    parseStrBody (escStr s ++ '"' :: rest) = some (s, rest)
  | [], rest => by
      show parseStrBody ('"' :: rest) = some ([], rest)
      unfold parseStrBody
      rw [if_neg (by decide), if_pos rfl]
  | c :: s, rest => by
      by_cases h : c = '"' || c = '\\'
      · have he : escStr (c :: s) = '\\' :: c :: escStr s := by
          simp [escStr, h]
        rw [he]
        simp only [List.cons_append]
        unfold parseStrBody
        rw [if_pos rfl]
        show (match parseStrBody (escStr s ++ '"' :: rest) with
              | some (s2, r) => some (c :: s2, r)
              | none => none) = some (c :: s, rest)
        rw [parseStrBody_esc s rest]
      · have he : escStr (c :: s) = c :: escStr s := by
          simp only [escStr, if_neg h]
        rw [he]
        have hq : c ≠ '"' := by
          intro hc
          rw [hc] at h
          simp at h
        have hb : c ≠ '\\' := by
          intro hc
          rw [hc] at h
          simp at h
        simp only [List.cons_append]
        unfold parseStrBody
        rw [if_neg hb, if_neg hq]
        show (match parseStrBody (escStr s ++ '"' :: rest) with
              | some (s2, r) => some (c :: s2, r)
              | none => none) = some (c :: s, rest)
        rw [parseStrBody_esc s rest]

theorem digitVal_digitChar (d : Nat) (h : d < 10) : digitVal (digitChar d) = d := by
  interval_cases d <;> rfl

theorem isDigitC_digitChar (d : Nat) : isDigitC (digitChar d) = true := by
  unfold digitChar
  split <;> rfl

theorem natDigits_ne_nil (n : Nat) : natDigits n ≠ [] := by
  unfold natDigits
  split
  · simp
  · simp

theorem natDigits_all_digit (n : Nat) : ∀ c ∈ natDigits n, isDigitC c = true := by
  induction n using Nat.strong_induction_on with
  | _ n ih =>
      intro c hc
      unfold natDigits at hc
      split at hc
      · rcases List.mem_singleton.mp hc with rfl
        exact isDigitC_digitChar n
      · rcases List.mem_append.mp hc with h | h
        · exact ih (n / 10) (Nat.div_lt_self (by omega) (by omega)) c h
        · rcases List.mem_singleton.mp h with rfl
          exact isDigitC_digitChar (n % 10)

theorem takeWhile_app (p : Char → Bool) (xs rest : Str)
    (h : ∀ x ∈ xs, p x = true) :
    (xs ++ rest).takeWhile p = xs ++ rest.takeWhile p := by
  induction xs with
  | nil => simp
  | cons x xr ih =>
      have hx : p x = true := h x (by simp)
      have ih2 := ih (fun y hy => h y (List.mem_cons_of_mem _ hy))
      simp [List.takeWhile_cons, hx, ih2]

theorem dropWhile_app (p : Char → Bool) (xs rest : Str)
    (h : ∀ x ∈ xs, p x = true) :
    (xs ++ rest).dropWhile p = rest.dropWhile p := by
  induction xs with
  | nil => simp
  | cons x xr ih =>
      have hx : p x = true := h x (by simp)
      have ih2 := ih (fun y hy => h y (List.mem_cons_of_mem _ hy))
      simp [List.dropWhile_cons, hx, ih2]

theorem takeWhile_nil_of_head (p : Char → Bool) (rest : Str)
    (h : ∀ c, rest.head? = some c → p c = false) :
    rest.takeWhile p = [] := by
  cases rest with
  | nil => rfl
  | cons c r =>
      have := h c rfl
      simp [List.takeWhile_cons, this]

theorem dropWhile_self_of_head (p : Char → Bool) (rest : Str)
    (h : ∀ c, rest.head? = some c → p c = false) :
    rest.dropWhile p = rest := by
  cases rest with
  | nil => rfl
  | cons c r =>
      have := h c rfl
      simp [List.dropWhile_cons, this]

theorem foldl_natDigits (n : Nat) :
    (natDigits n).foldl (fun a c => 10 * a + digitVal c) 0 = n := by
  induction n using Nat.strong_induction_on with
  | _ n ih =>
      unfold natDigits
      split
      · next h =>
          simp [List.foldl, digitVal_digitChar n h]
      · next h =>
          rw [List.foldl_append]
          rw [ih (n / 10) (Nat.div_lt_self (by omega) (by omega))]
          simp only [List.foldl]
          rw [digitVal_digitChar (n % 10) (Nat.mod_lt _ (by omega))]
          omega

theorem parseNat_digits (m : Nat) (rest : Str)
    (hrest : ∀ c, rest.head? = some c → isDigitC c = false) :
    parseNat (natDigits m ++ rest) = some (m, rest) := by
  unfold parseNat
  have htake : (natDigits m ++ rest).takeWhile (fun c => isDigitC c) = natDigits m := by
    rw [takeWhile_app _ _ _ (natDigits_all_digit m),
        takeWhile_nil_of_head _ rest hrest, List.append_nil]
  have hdrop : (natDigits m ++ rest).dropWhile (fun c => isDigitC c) = rest := by
    rw [dropWhile_app _ _ _ (natDigits_all_digit m),
        dropWhile_self_of_head _ rest hrest]
  simp only [htake, hdrop]
  rw [if_neg (natDigits_ne_nil m)]
  rw [foldl_natDigits m]

theorem isDigitC_elim (c : Char) (h : isDigitC c = true) :
    c ≠ 'n' ∧ c ≠ 't' ∧ c ≠ 'f' ∧ c ≠ '"' ∧ c ≠ '[' ∧ c ≠ lbr ∧ c ≠ '-' ∧
    c ≠ ']' ∧ c ≠ rbr ∧ c ≠ ',' := by
  simp only [isDigitC, Bool.or_eq_true, decide_eq_true_eq] at h
  rcases h with ((((((((h | h) | h) | h) | h) | h) | h) | h) | h) | h <;>
    subst h <;> exact ⟨by decide, by decide, by decide, by decide, by decide,
      by decide, by decide, by decide, by decide, by decide⟩

theorem wV_pos : ∀ v : Value, 1 ≤ wV v := by
  intro v
  cases v <;> simp [wV]

theorem wL_pos (l : List Value) : 1 ≤ wL l := by
  cases l <;> simp [wL]

theorem wM_pos (m : List (Str × Value)) : 1 ≤ wM m := by
  cases m with
  | nil => simp [wM]
  | cons kv rest =>
      obtain ⟨k, v⟩ := kv
      simp [wM]

theorem ser_head_spec (v : Value) :
    ∃ c cs, ser v = c :: cs ∧
      (c = 'n' ∨ c = 't' ∨ c = 'f' ∨ c = '"' ∨ c = '[' ∨ c = lbr ∨ c = '-' ∨
       isDigitC c = true) := by
  cases v with
  | vnull => exact ⟨'n', _, rfl, Or.inl rfl⟩
  | vbool b =>
      cases b with
      | true => exact ⟨'t', _, rfl, Or.inr (Or.inl rfl)⟩
      | false => exact ⟨'f', _, rfl, Or.inr (Or.inr (Or.inl rfl))⟩
  | vint n =>
      show ∃ c cs, intStr n = c :: cs ∧ _
      unfold intStr
      by_cases h : n < 0
      · rw [if_pos h]
        exact ⟨'-', _, rfl, by tauto⟩
      · rw [if_neg h]
        obtain ⟨d, ds, hds⟩ : ∃ d ds, natDigits n.toNat = d :: ds := by
          cases hnd : natDigits n.toNat with
          | nil => exact absurd hnd (natDigits_ne_nil _)
          | cons d ds => exact ⟨d, ds, rfl⟩
        refine ⟨d, ds, hds, ?_⟩
        have : isDigitC d = true :=
          natDigits_all_digit n.toNat d (by rw [hds]; simp)
        tauto
  | vstr s => exact ⟨'"', _, rfl, by tauto⟩
  | vlist l => exact ⟨'[', _, rfl, by tauto⟩
  | vmap m => exact ⟨lbr, _, rfl, by tauto⟩

theorem ser_head_ne_rbrack (v : Value) (c : Char) (cs : Str)
    (h : ser v = c :: cs) : c ≠ ']' ∧ c ≠ rbr := by
  obtain ⟨c2, cs2, h2, hspec⟩ := ser_head_spec v
  rw [h] at h2
  injection h2 with hc _
  rw [hc]
  rcases hspec with rfl | rfl | rfl | rfl | rfl | rfl | rfl | hd
  · exact ⟨by decide, by decide⟩
  · exact ⟨by decide, by decide⟩
  · exact ⟨by decide, by decide⟩
  · exact ⟨by decide, by decide⟩
  · exact ⟨by decide, by decide⟩
  · exact ⟨by decide, by decide⟩
  · exact ⟨by decide, by decide⟩
  · obtain ⟨_, _, _, _, _, _, _, h8, h9, _⟩ := isDigitC_elim c2 hd
    exact ⟨h8, h9⟩

theorem ser_null_eq : ser Value.vnull = str "null" := by
  conv_lhs => unfold ser
theorem ser_true_eq : ser (Value.vbool true) = str "true" := by
  conv_lhs => unfold ser
theorem ser_false_eq : ser (Value.vbool false) = str "false" := by
  conv_lhs => unfold ser
theorem ser_int_eq (n : Int) : ser (Value.vint n) = intStr n := by
  conv_lhs => unfold ser
theorem ser_str_eq (s : Str) : ser (Value.vstr s) = '"' :: (escStr s ++ ['"']) := by
  conv_lhs => unfold ser
theorem ser_list_eq (l : List Value) : ser (Value.vlist l) = '[' :: serL l := by
  conv_lhs => unfold ser
theorem ser_map_eq (m : List (Str × Value)) : ser (Value.vmap m) = lbr :: serM m := by
  conv_lhs => unfold ser

theorem serL_nil_eq : serL [] = [']'] := by
  conv_lhs => unfold serL
theorem serL_single_eq (v : Value) : serL [v] = ser v ++ [']'] := by
  conv_lhs => unfold serL
theorem serL_cons_eq (v v2 : Value) (vs : List Value) :
    serL (v :: v2 :: vs) = ser v ++ ',' :: serL (v2 :: vs) := by
  conv_lhs => unfold serL

theorem serM_nil_eq : serM [] = [rbr] := by
  conv_lhs => unfold serM
theorem serM_single_eq (k : Str) (v : Value) :
    serM [(k, v)] = '"' :: (escStr k ++ '"' :: ':' :: (ser v ++ [rbr])) := by
  conv_lhs => unfold serM
theorem serM_cons_eq (k : Str) (v : Value) (kv2 : Str × Value)
    (kvs : List (Str × Value)) :
    serM ((k, v) :: kv2 :: kvs) =
      '"' :: (escStr k ++ '"' :: ':' :: (ser v ++ ',' :: serM (kv2 :: kvs))) := by
  conv_lhs => unfold serM

theorem wV_list_eq (l : List Value) : wV (Value.vlist l) = wL l + 1 := by
  conv_lhs => unfold wV
theorem wV_map_eq (m : List (Str × Value)) : wV (Value.vmap m) = wM m + 1 := by
  conv_lhs => unfold wV
theorem wL_cons_eq (v : Value) (vs : List Value) :
    wL (v :: vs) = max (wV v) (wL vs) + 1 := by
  conv_lhs => unfold wL
theorem wM_cons_eq (k : Str) (v : Value) (kvs : List (Str × Value)) :
    wM ((k, v) :: kvs) = max (wV v) (wM kvs) + 1 := by
  conv_lhs => unfold wM

theorem parseV_step_null (f : Nat) (rest : Str) :
    parseV (f + 1) (str "null" ++ rest) = some (Value.vnull, rest) := by
  show parseV (f + 1) ('n' :: (str "ull" ++ rest)) = _
  unfold parseV
  rw [if_pos rfl, expectLit_self]
  rfl

theorem parseV_step_true (f : Nat) (rest : Str) :
    parseV (f + 1) (str "true" ++ rest) = some (Value.vbool true, rest) := by
  show parseV (f + 1) ('t' :: (str "rue" ++ rest)) = _
  unfold parseV
  rw [if_neg (by decide), if_pos rfl, expectLit_self]
  rfl

theorem parseV_step_false (f : Nat) (rest : Str) :
    parseV (f + 1) (str "false" ++ rest) = some (Value.vbool false, rest) := by
  show parseV (f + 1) ('f' :: (str "alse" ++ rest)) = _
  unfold parseV
  rw [if_neg (by decide), if_neg (by decide), if_pos rfl, expectLit_self]
  rfl

theorem parseV_step_str (f : Nat) (s rest : Str) :
    parseV (f + 1) (('"' :: (escStr s ++ ['"'])) ++ rest) = some (Value.vstr s, rest) := by
  have h : ('"' :: (escStr s ++ ['"'])) ++ rest = '"' :: (escStr s ++ '"' :: rest) := by
    simp
  rw [h]
  unfold parseV
  rw [if_neg (by decide), if_neg (by decide), if_neg (by decide), if_pos rfl,
      parseStrBody_esc]
  rfl

theorem parseV_step_int (f : Nat) (n : Int) (rest : Str)
    (hrest : ∀ c, rest.head? = some c → isDigitC c = false) :
    parseV (f + 1) (intStr n ++ rest) = some (Value.vint n, rest) := by
  unfold intStr
  by_cases hneg : n < 0
  · rw [if_pos hneg]
    show parseV (f + 1) ('-' :: (natDigits n.natAbs ++ rest)) = _
    unfold parseV
    rw [if_neg (by decide), if_neg (by decide), if_neg (by decide),
        if_neg (by decide), if_neg (by decide), if_neg (by decide), if_pos rfl,
        parseNat_digits n.natAbs rest hrest]
    have heq : -((n.natAbs : Nat) : Int) = n := by omega
    simp only [Option.map_some']
    rw [heq]
  · rw [if_neg hneg]
    obtain ⟨d, ds, hds⟩ : ∃ d ds, natDigits n.toNat = d :: ds := by
      cases hnd : natDigits n.toNat with
      | nil => exact absurd hnd (natDigits_ne_nil _)
      | cons d ds => exact ⟨d, ds, rfl⟩
    have hd : isDigitC d = true :=
      natDigits_all_digit n.toNat d (by rw [hds]; simp)
    obtain ⟨h1, h2, h3, h4, h5, h6, h7, _, _, _⟩ := isDigitC_elim d hd
    rw [hds]
    show parseV (f + 1) (d :: (ds ++ rest)) = _
    unfold parseV
    rw [if_neg h1, if_neg h2, if_neg h3, if_neg h4, if_neg h5, if_neg h6,
        if_neg h7, if_pos hd]
    have harg : d :: (ds ++ rest) = natDigits n.toNat ++ rest := by
      rw [hds]
      rfl
    rw [harg, parseNat_digits n.toNat rest hrest]
    have heq : ((n.toNat : Nat) : Int) = n := Int.toNat_of_nonneg (by omega)
    simp only [Option.map_some']
    rw [heq]

theorem parse_ser_all (f : Nat) :
    (∀ v rest, wV v ≤ f → (∀ c, rest.head? = some c → isDigitC c = false) →
      parseV f (ser v ++ rest) = some (v, rest)) ∧
    (∀ vs rest, vs ≠ [] → wL vs ≤ f →
      parseVs f (serL vs ++ rest) = some (vs, rest)) ∧
    (∀ kvs rest, kvs ≠ [] → wM kvs ≤ f →
      parseKVs f (serM kvs ++ rest) = some (kvs, rest)) := by
  induction f using Nat.strong_induction_on with
  | _ f ih =>
  cases f with
  | zero =>
      refine ⟨?_, ?_, ?_⟩
      · intro v rest hw _
        have := wV_pos v
        omega
      · intro vs rest _ hw
        have := wL_pos vs
        omega
      · intro kvs rest _ hw
        have := wM_pos kvs
        omega
  | succ f =>
      have ihA := (ih f (by omega)).1
      have ihB := (ih f (by omega)).2.1
      have ihC := (ih f (by omega)).2.2
      refine ⟨?_, ?_, ?_⟩
      · intro v rest hw hrest
        cases v with
        | vnull => rw [ser_null_eq]; exact parseV_step_null f rest
        | vbool b =>
            cases b with
            | true => rw [ser_true_eq]; exact parseV_step_true f rest
            | false => rw [ser_false_eq]; exact parseV_step_false f rest
        | vint n => rw [ser_int_eq]; exact parseV_step_int f n rest hrest
        | vstr s => rw [ser_str_eq]; exact parseV_step_str f s rest
        | vlist l =>
            rw [ser_list_eq]
            cases l with
            | nil =>
                rw [serL_nil_eq]
                show parseV (f + 1) ('[' :: (']' :: rest)) = _
                unfold parseV
                rw [if_neg (by decide), if_neg (by decide), if_neg (by decide),
                    if_neg (by decide), if_pos rfl]
                unfold parseVBracket
                rw [if_pos rfl]
            | cons v vs =>
                obtain ⟨t0, ht0⟩ : ∃ t, serL (v :: vs) = ser v ++ t := by
                  cases vs with
                  | nil => exact ⟨[']'], serL_single_eq v⟩
                  | cons v2 vs2 => exact ⟨',' :: serL (v2 :: vs2), serL_cons_eq v v2 vs2⟩
                obtain ⟨c0, cs0, hser, _⟩ := ser_head_spec v
                have hne0 := ser_head_ne_rbrack v c0 cs0 hser
                have hwl : wL (v :: vs) ≤ f := by
                  rw [wV_list_eq] at hw
                  omega
                have hdec : serL (v :: vs) ++ rest = c0 :: (cs0 ++ t0 ++ rest) := by
                  rw [ht0, hser]
                  simp
                show parseV (f + 1) ('[' :: (serL (v :: vs) ++ rest)) = _
                unfold parseV
                rw [if_neg (by decide), if_neg (by decide), if_neg (by decide),
                    if_neg (by decide), if_pos rfl, hdec]
                unfold parseVBracket
                rw [if_neg hne0.1, ← hdec, ihB (v :: vs) rest (by simp) hwl]
                rfl
        | vmap m =>
            rw [ser_map_eq]
            cases m with
            | nil =>
                rw [serM_nil_eq]
                show parseV (f + 1) (lbr :: (rbr :: rest)) = _
                unfold parseV
                rw [if_neg (by decide), if_neg (by decide), if_neg (by decide),
                    if_neg (by decide), if_neg (by decide), if_pos rfl]
                unfold parseVBrace
                rw [if_pos rfl]
            | cons kv kvs =>
                obtain ⟨k, v⟩ := kv
                have hdec : ∃ z, serM ((k, v) :: kvs) = '"' :: z := by
                  cases kvs with
                  | nil => exact ⟨_, serM_single_eq k v⟩
                  | cons kv2 kvs2 => exact ⟨_, serM_cons_eq k v kv2 kvs2⟩
                obtain ⟨z, hz⟩ := hdec
                have hwm : wM ((k, v) :: kvs) ≤ f := by
                  rw [wV_map_eq] at hw
                  omega
                have hdec2 : serM ((k, v) :: kvs) ++ rest = '"' :: (z ++ rest) := by
                  rw [hz]
                  rfl
                show parseV (f + 1) (lbr :: (serM ((k, v) :: kvs) ++ rest)) = _
                unfold parseV
                rw [if_neg (by decide), if_neg (by decide), if_neg (by decide),
                    if_neg (by decide), if_neg (by decide), if_pos rfl, hdec2]
                unfold parseVBrace
                rw [if_neg (by decide), ← hdec2,
                    ihC ((k, v) :: kvs) rest (by simp) hwm]
                rfl
      · intro vs rest hne hw
        cases vs with
        | nil => exact absurd rfl hne
        | cons v vs' =>
            unfold parseVs
            have hwv : wV v ≤ f := by
              rw [wL_cons_eq] at hw
              have := le_max_left (wV v) (wL vs')
              omega
            cases vs' with
            | nil =>
                rw [serL_single_eq]
                have h : (ser v ++ [']']) ++ rest = ser v ++ (']' :: rest) := by simp
                rw [h, ihA v (']' :: rest) hwv (by intro c hc; injection hc with hc; rw [← hc]; rfl)]
                show parseVsTail f v (']' :: rest) = some ([v], rest)
                unfold parseVsTail
                rw [if_neg (by decide), if_pos rfl]
            | cons v2 vs2 =>
                rw [serL_cons_eq]
                have h : (ser v ++ ',' :: serL (v2 :: vs2)) ++ rest =
                    ser v ++ (',' :: (serL (v2 :: vs2) ++ rest)) := by simp
                have hwl2 : wL (v2 :: vs2) ≤ f := by
                  rw [wL_cons_eq] at hw
                  have := le_max_right (wV v) (wL (v2 :: vs2))
                  omega
                rw [h, ihA v (',' :: (serL (v2 :: vs2) ++ rest)) hwv
                    (by intro c hc; injection hc with hc; rw [← hc]; rfl)]
                show parseVsTail f v (',' :: (serL (v2 :: vs2) ++ rest)) = _
                unfold parseVsTail
                rw [if_pos rfl, ihB (v2 :: vs2) rest (by simp) hwl2]
                rfl
      · intro kvs rest hne hw
        cases kvs with
        | nil => exact absurd rfl hne
        | cons kv kvs' =>
            obtain ⟨k, v⟩ := kv
            have hwv : wV v ≤ f := by
              rw [wM_cons_eq] at hw
              have := le_max_left (wV v) (wM kvs')
              omega
            cases kvs' with
            | nil =>
                rw [serM_single_eq]
                have h : ('"' :: (escStr k ++ '"' :: ':' :: (ser v ++ [rbr]))) ++ rest =
                    '"' :: (escStr k ++ '"' :: (':' :: (ser v ++ rbr :: rest))) := by
                  simp
                rw [h]
                unfold parseKVs
                rw [if_pos rfl, parseStrBody_esc]
                show parseKVsKey f k (':' :: (ser v ++ rbr :: rest)) = _
                unfold parseKVsKey
                rw [if_pos rfl,
                    ihA v (rbr :: rest) hwv
                      (by intro c hc; injection hc with hc; rw [← hc]; rfl)]
                show parseKVsTail f k v (rbr :: rest) = _
                unfold parseKVsTail
                rw [if_neg (by decide), if_pos rfl]
            | cons kv2 kvs2 =>
                obtain ⟨k2, v2⟩ := kv2
                rw [serM_cons_eq]
                have h : ('"' :: (escStr k ++ '"' :: ':' ::
                      (ser v ++ ',' :: serM ((k2, v2) :: kvs2)))) ++ rest =
                    '"' :: (escStr k ++ '"' :: (':' ::
                      (ser v ++ ',' :: (serM ((k2, v2) :: kvs2) ++ rest)))) := by
                  simp
                have hwm2 : wM ((k2, v2) :: kvs2) ≤ f := by
                  rw [wM_cons_eq] at hw
                  have := le_max_right (wV v) (wM ((k2, v2) :: kvs2))
                  omega
                rw [h]
                unfold parseKVs
                rw [if_pos rfl, parseStrBody_esc]
                show parseKVsKey f k (':' :: (ser v ++ ',' ::
                    (serM ((k2, v2) :: kvs2) ++ rest))) = _
                unfold parseKVsKey
                rw [if_pos rfl,
                    ihA v (',' :: (serM ((k2, v2) :: kvs2) ++ rest)) hwv
                      (by intro c hc; injection hc with hc; rw [← hc]; rfl)]
                show parseKVsTail f k v (',' ::
                    (serM ((k2, v2) :: kvs2) ++ rest)) = _
                unfold parseKVsTail
                rw [if_pos rfl, ihC ((k2, v2) :: kvs2) rest (by simp) hwm2]
                rfl

theorem ser_length_pos (v : Value) : 1 ≤ (ser v).length := by
  obtain ⟨c, cs, h, _⟩ := ser_head_spec v
  rw [h]
  simp

mutual

theorem wV_le_serLen : ∀ v : Value, wV v ≤ (ser v).length
  | Value.vnull => by rw [ser_null_eq]; unfold wV; simp [str]
  | Value.vbool true => by rw [ser_true_eq]; unfold wV; simp [str]
  | Value.vbool false => by rw [ser_false_eq]; unfold wV; simp [str]
  | Value.vint n => by
      rw [ser_int_eq]
      unfold wV intStr
      by_cases h : n < 0
      · rw [if_pos h]; simp
      · rw [if_neg h]
        have := natDigits_ne_nil n.toNat
        cases hd : natDigits n.toNat with
        | nil => exact absurd hd this
        | cons a as => simp
  | Value.vstr s => by rw [ser_str_eq]; unfold wV; simp
  | Value.vlist l => by
      rw [ser_list_eq, wV_list_eq]
      have := wL_le_serLen l
      simp only [List.length_cons]
      omega
  | Value.vmap m => by
      rw [ser_map_eq, wV_map_eq]
      have := wM_le_serLen m
      simp only [List.length_cons]
      omega

theorem wL_le_serLen : ∀ l : List Value, wL l ≤ (serL l).length
  | [] => by rw [serL_nil_eq]; unfold wL; simp
  | [v] => by
      rw [serL_single_eq, wL_cons_eq]
      have h1 := wV_le_serLen v
      have h2 : wL ([] : List Value) = 1 := by simp [wL]
      have h3 := ser_length_pos v
      rw [h2]
      simp only [List.length_append, List.length_singleton]
      refine Nat.add_le_add ?_ le_rfl
      exact Nat.max_le.mpr ⟨h1, h3⟩
  | v :: v2 :: vs => by
      rw [serL_cons_eq, wL_cons_eq]
      have h1 := wV_le_serLen v
      have h2 := wL_le_serLen (v2 :: vs)
      have h3 := ser_length_pos v
      have h4 : 1 ≤ wL (v2 :: vs) := wL_pos _
      simp only [List.length_append, List.length_cons]
      have := Nat.max_le.mpr
        (⟨by omega, by omega⟩ :
          wV v ≤ (ser v).length + (serL (v2 :: vs)).length ∧
          wL (v2 :: vs) ≤ (ser v).length + (serL (v2 :: vs)).length)
      omega

theorem wM_le_serLen : ∀ m : List (Str × Value), wM m ≤ (serM m).length
  | [] => by rw [serM_nil_eq]; unfold wM; simp
  | [(k, v)] => by
      rw [serM_single_eq, wM_cons_eq]
      have h1 := wV_le_serLen v
      have h2 : wM ([] : List (Str × Value)) = 1 := by simp [wM]
      have h3 := ser_length_pos v
      rw [h2]
      simp only [List.length_cons, List.length_append, List.length_singleton]
      have := Nat.max_le.mpr
        (⟨by omega, by omega⟩ :
          wV v ≤ (escStr k).length + ((ser v).length + 1) + 1 ∧
          1 ≤ (escStr k).length + ((ser v).length + 1) + 1)
      omega
  | (k, v) :: (k2, v2) :: kvs => by
      rw [serM_cons_eq, wM_cons_eq]
      have h1 := wV_le_serLen v
      have h2 := wM_le_serLen ((k2, v2) :: kvs)
      have h3 := ser_length_pos v
      have h4 : 1 ≤ wM ((k2, v2) :: kvs) := wM_pos _
      simp only [List.length_cons, List.length_append]
      have := Nat.max_le.mpr
        (⟨by omega, by omega⟩ :
          wV v ≤ (escStr k).length +
            ((ser v).length + (serM ((k2, v2) :: kvs)).length + 1) + 1 ∧
          wM ((k2, v2) :: kvs) ≤ (escStr k).length +
            ((ser v).length + (serM ((k2, v2) :: kvs)).length + 1) + 1)
      omega

end

/-- The serializer round-trips through the deserializer for every value. -/
theorem value_roundtrip (v : Value) : loadV (ser v) = some v := by
  unfold loadV
  have h := (parse_ser_all ((ser v).length + 1)).1 v []
    (by have := wV_le_serLen v; omega)
    (by intro c hc; simp at hc)
  rw [List.append_nil] at h
  rw [h]

/-! ## Record shaper (claims C2, C5, C6) -/

/-- The author object embedded in a fetched comment (`memberCreator` in the
Trello payload); a `none` field models an absent dictionary key. -/
structure Member where
  id : Option Str
  username : Option Str
  avatarHash : Option Str
  fullName : Option Str
  initials : Option Str
deriving DecidableEq

/-- A fetched comment: the redundant `idMemberCreator` key, the embedded
author object (absent for deleted accounts), the timestamp and the text body
(`comment['data']['text']`). -/
structure Comment where
  idMemberCreator : Option Str
  memberCreator : Option Member
  date : Str
  text : Str
deriving DecidableEq

/-- A py-trello checklist wrapper; `items` is an opaque payload copied
through unmodified. -/
structure Checklist where
  id : Str
  name : Str
  items : Str
deriving DecidableEq

/-- A fetched card with the attributes `dl_card` reads; `labels`, `badges`,
`due` and `checked` are opaque payloads copied through unmodified. -/
structure Card where
  id : Str
  name : Str
  description : Str
  closed : Bool
  url : Str
  member_ids : List Str
  short_id : Str
  board_id : Str
  list_id : Str
  labels : Str
  badges : Str
  due : Str
  checked : Str
  comments : List Comment
  checklists : List Checklist
deriving DecidableEq

/-- The shaped dictionary `card_data` built by `dl_card`. -/
structure CardData where
  id : Str
  name : Str
  description : Str
  closed : Bool
  url : Str
  member_ids : List Str
  short_id : Str
  board_id : Str
  list_id : Str
  labels : Str
  badges : Str
  due : Str
  checked : Str
  comments : List Comment
  checklists : List Checklist
deriving DecidableEq

/-- The sentinel author substituted when the service omits author info for a
removed account. -/
def sentinelMember : Member :=
  { id := none
    username := some (str "COMPTE SUPPRIME")
    avatarHash := none
    fullName := none
    initials := none }

/-- One iteration of the comment loop in `dl_card`: delete `idMemberCreator`
(a `KeyError`, modelled as `none`, if the key is absent), then either redact
`avatarHash`, `fullName` and `initials` from the author object (each deletion
a `KeyError` if absent) or substitute the sentinel author when the author
info is missing.  A present author dict is truthy. -/
def shapeComment (c : Comment) : Option Comment :=
  match c.idMemberCreator with
  | none => none
  | some _ =>
      match c.memberCreator with
      | some m =>
          match m.avatarHash, m.fullName, m.initials with
          | some _, some _, some _ =>
              some { c with
                     idMemberCreator := none
                     memberCreator := some { m with
                                             avatarHash := none
                                             fullName := none
                                             initials := none } }
          | _, _, _ => none
      | none =>
          some { c with
                 idMemberCreator := none
                 memberCreator := some sentinelMember }

/-- Sequence a fallible function over a list (the loop aborting on the first
raised exception). -/
def optMapM (f : α → Option β) : List α → Option (List β)
  | [] => some []
  | x :: xs =>
      match f x with
      | none => none
      | some y =>
          match optMapM f xs with
          | none => none
          | some ys => some (y :: ys)

/-- The shaping part of `dl_card`: copy the fixed attribute set, shape each
comment, and flatten the checklist wrappers into plain `id`/`name`/`items`
records. -/
def dlCardData (c : Card) : Option CardData :=
  match optMapM shapeComment c.comments with
  | none => none
  | some shaped =>
      some { id := c.id
             name := c.name
             description := c.description
             closed := c.closed
             url := c.url
             member_ids := c.member_ids
             short_id := c.short_id
             board_id := c.board_id
             list_id := c.list_id
             labels := c.labels
             badges := c.badges
             due := c.due
             checked := c.checked
             comments := shaped
             checklists := c.checklists.map (fun cl =>
               { id := cl.id, name := cl.name, items := cl.items }) }

/-- Model of `dl_card`'s shaping together with its effect on the input card: the
comment dictionaries are mutated in place (they are the same objects stored
in the shaped record), all other attributes are untouched. -/
def dlCardRun (c : Card) : Option (CardData × Card) :=
  match dlCardData c with
  | none => none
  | some d => some (d, { c with comments := d.comments })

/-- Render one comment for the text dump
(`TXT_DUMP_COMMENTS_TEMPLATE`: username, date, blank line, text, trailing
newline); a `KeyError` (absent username) is modelled as `none`. -/
def renderComment (cm : Comment) : Option Str :=
  match cm.memberCreator with
  | none => none
  | some m =>
      match m.username with
      | none => none
      | some u =>
          some (u ++ '\n' :: (cm.date ++ '\n' :: '\n' :: (cm.text ++ ['\n'])))

/-- The text rendering built by `dump_txt` (`TXT_DUMP_TEMPLATE`): name, blank
line, description, blank line, a `Comments:` header and the newline-joined
comment renderings. -/
def renderTxt (d : CardData) : Option Str :=
  match optMapM renderComment d.comments with
  | none => none
  | some rendered =>
      some (d.name ++ '\n' :: '\n' :: (d.description ++ '\n' :: '\n' ::
        (str "Comments:" ++ '\n' :: (List.intercalate ['\n'] rendered ++ ['\n']))))

/-- The dictionary value of a shaped comment (present keys only). -/
def commentValue (cm : Comment) : Value :=
  Value.vmap (
    (match cm.idMemberCreator with
     | some v => [(str "idMemberCreator", Value.vstr v)]
     | none => []) ++
    (match cm.memberCreator with
     | some m => [(str "memberCreator", Value.vmap (
         (match m.id with
          | some x => [(str "id", Value.vstr x)]
          | none => []) ++
         (match m.username with
          | some x => [(str "username", Value.vstr x)]
          | none => []) ++
         (match m.avatarHash with
          | some x => [(str "avatarHash", Value.vstr x)]
          | none => []) ++
         (match m.fullName with
          | some x => [(str "fullName", Value.vstr x)]
          | none => []) ++
         (match m.initials with
          | some x => [(str "initials", Value.vstr x)]
          | none => [])))]
     | none => []) ++
    [(str "date", Value.vstr cm.date),
     (str "data", Value.vmap [(str "text", Value.vstr cm.text)])])

/-- The dictionary value of a flattened checklist. -/
def checklistValue (cl : Checklist) : Value :=
  Value.vmap [(str "id", Value.vstr cl.id), (str "name", Value.vstr cl.name),
              (str "items", Value.vstr cl.items)]

/-- The dictionary value of the whole shaped record. -/
def cardValue (d : CardData) : Value :=
  Value.vmap [(str "id", Value.vstr d.id), (str "name", Value.vstr d.name),
    (str "description", Value.vstr d.description),
    (str "closed", Value.vbool d.closed), (str "url", Value.vstr d.url),
    (str "member_ids", Value.vlist (d.member_ids.map Value.vstr)),
    (str "short_id", Value.vstr d.short_id),
    (str "board_id", Value.vstr d.board_id),
    (str "list_id", Value.vstr d.list_id), (str "labels", Value.vstr d.labels),
    (str "badges", Value.vstr d.badges), (str "due", Value.vstr d.due),
    (str "checked", Value.vstr d.checked),
    (str "comments", Value.vlist (d.comments.map commentValue)),
    (str "checklists", Value.vlist (d.checklists.map checklistValue))]

/-- Model of `toyaml`: the structured serialization of the shaped dictionary (the
external `yaml.safe_dump`, modelled by `ser`). -/
def toyaml (d : CardData) : Str := ser (cardValue d)

/-- C5: serializing a shaped card record to the structured YAML form and
deserializing it yields the record's dictionary again, field for field; the
round-trip holds for every serializable value, hence for every shaped
record. -/
theorem c5_structured_roundtrip :
    (∀ v : Value, loadV (ser v) = some v) ∧
    (∀ d : CardData, loadV (toyaml d) = some (cardValue d)) :=
  ⟨value_roundtrip, fun d => value_roundtrip (cardValue d)⟩

theorem shapeComment_spec (c c' : Comment) (h : shapeComment c = some c') :
    c'.idMemberCreator = none ∧
    (∃ m, c'.memberCreator = some m ∧ m.avatarHash = none ∧ m.fullName = none ∧
      m.initials = none) ∧
    (c.memberCreator = none → c'.memberCreator = some sentinelMember) := by
  unfold shapeComment at h
  cases hid : c.idMemberCreator with
  | none =>
      simp only [hid] at h
      exact Option.noConfusion h
  | some x =>
      simp only [hid] at h
      cases hm : c.memberCreator with
      | none =>
          simp only [hm] at h
          obtain rfl := Option.some_inj.mp h
          exact ⟨rfl, ⟨sentinelMember, rfl, rfl, rfl, rfl⟩, fun _ => rfl⟩
      | some m =>
          simp only [hm] at h
          cases ha : m.avatarHash with
          | none =>
              simp only [ha] at h
              exact Option.noConfusion h
          | some a =>
              simp only [ha] at h
              cases hf : m.fullName with
              | none =>
                  simp only [hf] at h
                  exact Option.noConfusion h
              | some fn =>
                  simp only [hf] at h
                  cases hi : m.initials with
                  | none =>
                      simp only [hi] at h
                      exact Option.noConfusion h
                  | some i =>
                      simp only [hi] at h
                      have hc := Option.some_inj.mp h
                      refine ⟨by rw [← hc],
                        ⟨{ m with avatarHash := none, fullName := none, initials := none },
                          by rw [← hc], rfl, rfl, rfl⟩, ?_⟩
                      intro habs
                      exact Option.noConfusion habs

theorem optMapM_shape_spec : ∀ (l l' : List Comment),
    optMapM shapeComment l = some l' →
    (∀ cm ∈ l', cm.idMemberCreator = none ∧
      (∃ m, cm.memberCreator = some m ∧ m.avatarHash = none ∧
        m.fullName = none ∧ m.initials = none)) ∧
    l.length = l'.length ∧
    (∀ p ∈ l.zip l', p.1.memberCreator = none →
      p.2.memberCreator = some sentinelMember)
  | [], l', h => by
      unfold optMapM at h
      injection h with h
      subst h
      exact ⟨by simp, rfl, by simp⟩
  | c :: cs, l', h => by
      unfold optMapM at h
      cases hc : shapeComment c with
      | none => rw [hc] at h; simp at h
      | some c' =>
          rw [hc] at h
          cases hcs : optMapM shapeComment cs with
          | none => rw [hcs] at h; simp at h
          | some cs' =>
              rw [hcs] at h
              injection h with h
              subst h
              obtain ⟨hall, hlen, hzip⟩ := optMapM_shape_spec cs cs' hcs
              obtain ⟨h1, h2, h3⟩ := shapeComment_spec c c' hc
              refine ⟨?_, by simp [hlen], ?_⟩
              · intro cm hcm
                rcases List.mem_cons.mp hcm with rfl | hcm
                · exact ⟨h1, h2⟩
                · exact hall cm hcm
              · intro p hp
                rcases List.mem_cons.mp hp with rfl | hp
                · exact h3
                · exact hzip p hp

/-- C2: in every successfully shaped record, every output comment lacks the
keys `avatarHash`, `fullName`, `initials` (inside its author object, the only
place the service ever puts them) and the redundant creator-id key; and every
comment whose author info is absent in the fetched data carries the sentinel
author whose username is the deleted-account placeholder. -/
theorem c2_comment_redaction (c : Card) (d : CardData)
    (h : dlCardData c = some d) :
    (∀ cm ∈ d.comments, cm.idMemberCreator = none ∧
      (∃ m, cm.memberCreator = some m ∧ m.avatarHash = none ∧
        m.fullName = none ∧ m.initials = none)) ∧
    c.comments.length = d.comments.length ∧
    (∀ p ∈ c.comments.zip d.comments, p.1.memberCreator = none →
      p.2.memberCreator = some sentinelMember) := by
  unfold dlCardData at h
  cases hm : optMapM shapeComment c.comments with
  | none => rw [hm] at h; simp at h
  | some shaped =>
      rw [hm] at h
      injection h with h
      subst h
      exact optMapM_shape_spec c.comments shaped hm

/-- A concrete fetched card with one full-author comment and one
deleted-account comment. -/
def cardW : Card :=
  { id := str "c1"
    name := str "Card one"
    description := str "Desc"
    closed := false
    url := str "http"
    member_ids := [str "m1"]
    short_id := str "7"
    board_id := str "b1"
    list_id := str "l1"
    labels := str "L"
    badges := str "B"
    due := str "D"
    checked := str "K"
    comments := [
      { idMemberCreator := some (str "m1")
        memberCreator := some { id := some (str "m1")
                                username := some (str "alice")
                                avatarHash := some (str "h")
                                fullName := some (str "Alice A")
                                initials := some (str "AA") }
        date := str "2015-01-01"
        text := str "hello" },
      { idMemberCreator := some (str "m2")
        memberCreator := none
        date := str "2015-01-02"
        text := str "bye" }]
    checklists := [{ id := str "k1", name := str "cl", items := str "I" }] }

/-- The shaped record of `cardW`. -/
def cardWShaped : CardData :=
  { id := str "c1"
    name := str "Card one"
    description := str "Desc"
    closed := false
    url := str "http"
    member_ids := [str "m1"]
    short_id := str "7"
    board_id := str "b1"
    list_id := str "l1"
    labels := str "L"
    badges := str "B"
    due := str "D"
    checked := str "K"
    comments := [
      { idMemberCreator := none
        memberCreator := some { id := some (str "m1")
                                username := some (str "alice")
                                avatarHash := none
                                fullName := none
                                initials := none }
        date := str "2015-01-01"
        text := str "hello" },
      { idMemberCreator := none
        memberCreator := some sentinelMember
        date := str "2015-01-02"
        text := str "bye" }]
    checklists := [{ id := str "k1", name := str "cl", items := str "I" }] }

/-- Witness for C2 on the concrete card. -/
theorem c2_comment_redaction_witness :
    (∀ cm ∈ cardWShaped.comments, cm.idMemberCreator = none ∧
      (∃ m, cm.memberCreator = some m ∧ m.avatarHash = none ∧
        m.fullName = none ∧ m.initials = none)) ∧
    cardW.comments.length = cardWShaped.comments.length ∧
    (∀ p ∈ cardW.comments.zip cardWShaped.comments, p.1.memberCreator = none →
      p.2.memberCreator = some sentinelMember) :=
  c2_comment_redaction cardW cardWShaped (by decide)

/-- C6 counterexample: shaping succeeds on the concrete card but the card
after the run differs from the input card — `dl_card` mutates the card's
nested comment objects in place (`del comm['idMemberCreator']`, author
redaction), so the shaper is not free of effects on its input. -/
theorem c6_purity_counterexample :
    (dlCardRun cardW).isSome = true ∧
    (dlCardRun cardW).map Prod.snd ≠ some cardW := by
  constructor
  · decide
  · decide

/-- C6 amended: shaping has no effect beyond the pure transformation except
on the input card's comment list, whose entries are mutated in place into
exactly the redacted comments stored in the output record; every other
attribute of the card is left unchanged. -/
theorem c6_shaper_effect (c : Card) (d : CardData) (c' : Card)
    (h : dlCardRun c = some (d, c')) :
    c' = { c with comments := d.comments } ∧
    c'.id = c.id ∧ c'.name = c.name ∧ c'.description = c.description ∧
    c'.closed = c.closed ∧ c'.url = c.url ∧ c'.member_ids = c.member_ids ∧
    c'.short_id = c.short_id ∧ c'.board_id = c.board_id ∧
    c'.list_id = c.list_id ∧ c'.labels = c.labels ∧ c'.badges = c.badges ∧
    c'.due = c.due ∧ c'.checked = c.checked ∧
    c'.checklists = c.checklists := by
  unfold dlCardRun at h
  cases hd : dlCardData c with
  | none => rw [hd] at h; simp at h
  | some d2 =>
      rw [hd] at h
      injection h with h
      injection h with h1 h2
      subst h1
      subst h2
      exact ⟨rfl, rfl, rfl, rfl, rfl, rfl, rfl, rfl, rfl, rfl, rfl, rfl,
        rfl, rfl, rfl⟩

/-- Witness for the amended C6 on the concrete card. -/
theorem c6_shaper_effect_witness :
    { cardW with comments := cardWShaped.comments } =
      { cardW with comments := cardWShaped.comments } ∧
    ({ cardW with comments := cardWShaped.comments } : Card).id = cardW.id ∧
    ({ cardW with comments := cardWShaped.comments } : Card).name = cardW.name ∧
    ({ cardW with comments := cardWShaped.comments } : Card).description =
      cardW.description ∧
    ({ cardW with comments := cardWShaped.comments } : Card).closed =
      cardW.closed ∧
    ({ cardW with comments := cardWShaped.comments } : Card).url = cardW.url ∧
    ({ cardW with comments := cardWShaped.comments } : Card).member_ids =
      cardW.member_ids ∧
    ({ cardW with comments := cardWShaped.comments } : Card).short_id =
      cardW.short_id ∧
    ({ cardW with comments := cardWShaped.comments } : Card).board_id =
      cardW.board_id ∧
    ({ cardW with comments := cardWShaped.comments } : Card).list_id =
      cardW.list_id ∧
    ({ cardW with comments := cardWShaped.comments } : Card).labels =
      cardW.labels ∧
    ({ cardW with comments := cardWShaped.comments } : Card).badges =
      cardW.badges ∧
    ({ cardW with comments := cardWShaped.comments } : Card).due = cardW.due ∧
    ({ cardW with comments := cardWShaped.comments } : Card).checked =
      cardW.checked ∧
    ({ cardW with comments := cardWShaped.comments } : Card).checklists =
      cardW.checklists :=
  c6_shaper_effect cardW cardWShaped
    { cardW with comments := cardWShaped.comments } (by decide)

/-! ## Snapshot, deletion set (claim C1) and `write_card` (claim C9) -/

/-- Strictly-below test on segment paths. -/
def segBelowB (a q : SPath) : Bool := segLeB a q && decide (q ≠ a)

/-- Entries `os.walk` reports in its file lists (regular files and symlinks
to files). -/
def isFileEntry : FEntry → Bool
  | FEntry.dir => false
  | _ => true

/-- The walk root `BLOBS_ROOT = abspath(join(RESULTS_DIR_ROOT, 'raw_tickets'))`
(`abspath` modelled as the identity: one fixed working directory). -/
def walkRootBlob (root : Str) : SPath := splitC '/' (pyJoin root [str "raw_tickets"])

/-- The walk root `TREE_ROOT = abspath(join(RESULTS_DIR_ROOT, 'current'))`. -/
def walkRootTree (root : Str) : SPath := splitC '/' (pyJoin root [str "current"])

/-- Model of `get_current_files()`: every file currently present under the blob store
root and the current-view tree root. -/
def getCurrentFiles (root : Str) (fs : FS) : List SPath :=
  (fs.filter (fun p => isFileEntry p.2 &&
    (segBelowB (walkRootBlob root) p.1 || segBelowB (walkRootTree root) p.1))).map
    (fun p => p.1)

/-- The deletion loop of `gitit`: one `git rm old_file` for every pre-run
file that is not in the post-run file list. -/
def gitRmFiles (prev cur : List SPath) : List SPath :=
  prev.filter (fun f => decide (f ∉ cur))

/-- C1: the deletion step issues a removal exactly for the files present in
the pre-run snapshot but absent from the post-run file set, and for no other
file — both in general, for snapshots taken by `get_current_files` (paths
under the blob store and current-view tree), and on the concrete pre-run set
`A, B, C` against post-run set `A, B`, where only `C` is removed. -/
theorem c1_deletion_set :
    (∀ prev cur f, f ∈ gitRmFiles prev cur ↔ f ∈ prev ∧ f ∉ cur) ∧
    (∀ root fs0 fs1 f,
      f ∈ gitRmFiles (getCurrentFiles root fs0) (getCurrentFiles root fs1) ↔
        (f ∈ getCurrentFiles root fs0 ∧ f ∉ getCurrentFiles root fs1)) ∧
    gitRmFiles [[str "A"], [str "B"], [str "C"]] [[str "A"], [str "B"]] =
      [[str "C"]] := by
  refine ⟨?_, ?_, by decide⟩
  · intro prev cur f
    simp [gitRmFiles, List.mem_filter]
  · intro root fs0 fs1 f
    simp [gitRmFiles, List.mem_filter]

/-- Length of the common leading run of two segment lists. -/
def commonLen : SPath → SPath → Nat
  | a :: as, b :: bs => if a = b then commonLen as bs + 1 else 0
  | _, _ => 0

/-- Join segments with the separator. -/
def joinSegs : List Str → Str
  | [] => []
  | [x] => x
  | x :: xs => x ++ '/' :: joinSegs xs

/-- Model of `os.path.relpath(path, start)` for two paths interpreted from the same
working directory: drop the common leading segments, go up once per
remaining segment of `start`, then down into `path` (empty segments ignored
as CPython does). -/
def relpathStr (path start : Str) : Str :=
  let ps := (splitC '/' path).filter (fun x => decide (x ≠ []))
  let ss := (splitC '/' start).filter (fun x => decide (x ≠ []))
  let i := commonLen ps ss
  let res := List.replicate (ss.length - i) (str "..") ++ ps.drop i
  if res = [] then str "." else joinSegs res

/-- Model of `os.path.dirname`. -/
def dirStr (s : Str) : Str := joinSegs ((splitC '/' s).dropLast)

/-- Insert or overwrite an entry. -/
def fsInsert (fs : FS) (k : SPath) (e : FEntry) : FS :=
  if (fsLookup fs k).isSome then fs.map (fun p => if p.1 = k then (k, e) else p)
  else fs ++ [(k, e)]

/-- Model of `write_card(blob_path, tree_path, data)`: compute the relative path from
the link's parent directory to the blob, write the payload to the blob path
(`open(blob_path, 'w')` fails when the blob's parent directory does not
exist or the blob path is a directory), then create the symlink
(`os.symlink` fails when an entry already exists at the link path — the blob
write included — or the link path's parent directory does not exist).  An
empty parent means the working directory, which always exists. -/
def writeCard (fs : FS) (blob tree data : Str) : Option FS :=
  let rel := relpathStr blob (dirStr tree)
  let bseg := splitC '/' blob
  let tseg := splitC '/' tree
  if ¬((splitC '/' blob).dropLast = [] ∨
      fsLookup fs (splitC '/' blob).dropLast = some FEntry.dir) then none
  else if fsLookup fs bseg = some FEntry.dir then none
  else
    let fs1 := fsInsert fs bseg (FEntry.file data)
    if (fsLookup fs1 tseg).isSome then none
    else if ¬(tseg.dropLast = [] ∨ fsLookup fs1 tseg.dropLast = some FEntry.dir)
      then none
    else some (fsInsert fs1 tseg (FEntry.symlink rel))

/-- C9 counterexample: in a state where the link path's parent directory
exists and no entry exists at the link path, but the blob store directory
`raw_tickets` is missing, `write_card` still fails — refuting the claim that
it fails exactly when the link parent is missing or a link already exists. -/
theorem c9_write_failure_counterexample :
    writeCard [([str "results"], FEntry.dir),
               ([str "results", str "current"], FEntry.dir)]
        (str "results/raw_tickets/c1.yaml") (str "results/current/c.yaml")
        (str "D") = none ∧
    (splitC '/' (str "results/current/c.yaml")).dropLast ≠ [] ∧
    fsLookup [([str "results"], FEntry.dir),
              ([str "results", str "current"], FEntry.dir)]
      ((splitC '/' (str "results/current/c.yaml")).dropLast) = some FEntry.dir ∧
    fsLookup [([str "results"], FEntry.dir),
              ([str "results", str "current"], FEntry.dir)]
      (splitC '/' (str "results/current/c.yaml")) = none := by
  refine ⟨by decide, by decide, by decide, by decide⟩

/-- C9 amended: `write_card` writes the payload to the blob path and creates
at the link path a symlink whose target is the relative path from the link's
parent directory to the blob; it fails with an I/O error exactly when the
blob path's parent directory does not exist, the blob path is an existing
directory, an entry exists at the link path after the blob write (a
pre-existing one, or the blob itself when the two paths coincide), or the
link path's parent directory does not exist. -/
theorem c9_write_blob_and_link (fs : FS) (blob tree data : Str) :
    (writeCard fs blob tree data = none ↔
      (¬((splitC '/' blob).dropLast = [] ∨
         fsLookup fs (splitC '/' blob).dropLast = some FEntry.dir) ∨
       fsLookup fs (splitC '/' blob) = some FEntry.dir ∨
       (fsLookup (fsInsert fs (splitC '/' blob) (FEntry.file data))
          (splitC '/' tree)).isSome = true ∨
       ¬((splitC '/' tree).dropLast = [] ∨
         fsLookup (fsInsert fs (splitC '/' blob) (FEntry.file data))
           (splitC '/' tree).dropLast = some FEntry.dir))) ∧
    (∀ fs', writeCard fs blob tree data = some fs' →
      fs' = fsInsert (fsInsert fs (splitC '/' blob) (FEntry.file data))
        (splitC '/' tree)
        (FEntry.symlink (relpathStr blob (dirStr tree)))) := by
  unfold writeCard
  by_cases h1 : ¬((splitC '/' blob).dropLast = [] ∨
      fsLookup fs (splitC '/' blob).dropLast = some FEntry.dir)
  · rw [if_pos h1]
    exact ⟨by simp [h1], fun fs' h => Option.noConfusion h⟩
  · rw [if_neg h1]
    by_cases h2 : fsLookup fs (splitC '/' blob) = some FEntry.dir
    · rw [if_pos h2]
      exact ⟨by simp [h1, h2], fun fs' h => Option.noConfusion h⟩
    · rw [if_neg h2]
      by_cases h3 : (fsLookup (fsInsert fs (splitC '/' blob) (FEntry.file data))
          (splitC '/' tree)).isSome = true
      · rw [if_pos h3]
        exact ⟨by simp [h1, h2, h3], fun fs' h => Option.noConfusion h⟩
      · rw [if_neg h3]
        by_cases h4 : ¬((splitC '/' tree).dropLast = [] ∨
            fsLookup (fsInsert fs (splitC '/' blob) (FEntry.file data))
              (splitC '/' tree).dropLast = some FEntry.dir)
        · rw [if_pos h4]
          exact ⟨by simp [h1, h2, h3, h4], fun fs' h => Option.noConfusion h⟩
        · rw [if_neg h4]
          refine ⟨by simp [h1, h2, h3, h4], ?_⟩
          intro fs' h
          exact (Option.some_inj.mp h).symm

/-- Expected state after a successful `write_card` on the witness input. -/
def writeCardOut : FS :=
  [([str "results"], FEntry.dir),
   ([str "results", str "raw_tickets"], FEntry.dir),
   ([str "results", str "current"], FEntry.dir),
   ([str "results", str "raw_tickets", str "c1.yaml"], FEntry.file (str "D")),
   ([str "results", str "current", str "c.yaml"],
    FEntry.symlink (str "../raw_tickets/c1.yaml"))]

/-- Witness for the amended C9: a successful write produces exactly the blob
plus the relative symlink. -/
theorem c9_write_blob_and_link_witness :
    writeCardOut = fsInsert
      (fsInsert [([str "results"], FEntry.dir),
                 ([str "results", str "raw_tickets"], FEntry.dir),
                 ([str "results", str "current"], FEntry.dir)]
        (splitC '/' (str "results/raw_tickets/c1.yaml")) (FEntry.file (str "D")))
      (splitC '/' (str "results/current/c.yaml"))
      (FEntry.symlink (relpathStr (str "results/raw_tickets/c1.yaml")
        (dirStr (str "results/current/c.yaml")))) :=
  (c9_write_blob_and_link
      [([str "results"], FEntry.dir),
       ([str "results", str "raw_tickets"], FEntry.dir),
       ([str "results", str "current"], FEntry.dir)]
      (str "results/raw_tickets/c1.yaml") (str "results/current/c.yaml")
      (str "D")).2 writeCardOut (by decide)

/-! ## Sync orchestrator (claims C4 and C7) -/

/-- A Trello list as returned by the API client. -/
structure TList where
  id : Str
  name : Str
  cards : List Card
deriving DecidableEq

/-- A Trello board as returned by the API client. -/
structure Board where
  id : Str
  name : Str
  closedCards : List Card
  lists : List TList
deriving DecidableEq

/-- Board directory name `'%s_%s' % (str(board.id), board.name)`. -/
def boardDirname (b : Board) : Str := b.id ++ '_' :: b.name

/-- List directory name `'%s_%s' % (str(list_.id), list_.name)`. -/
def listDirname (l : TList) : Str := l.id ++ '_' :: l.name

/-- Card entry name `'%s_%s' % (card.short_id, card.name)`. -/
def cardTreeName (c : Card) : Str := c.short_id ++ '_' :: c.name

/-- Model of `dl_card` after `card.fetch()`: shape the record, dump the YAML blob and
its link, then the text blob and its link. -/
def dlCardWrite (root : Str) (c : Card) (tree : Str) (fs : FS) : Option FS :=
  match dlCardData c with
  | none => none
  | some d =>
      match writeCard fs
          (normpath root [str "raw_tickets", c.id] ++ str ".yaml")
          (tree ++ str ".yaml") (toyaml d) with
      | none => none
      | some fs1 =>
          match renderTxt d with
          | none => none
          | some txt =>
              writeCard fs1
                (normpath root [str "raw_tickets", c.id] ++ str ".txt")
                (tree ++ str ".txt") txt

/-- The card loop for one subdirectory (a list directory or `archives`). -/
def goCards (root bdn sub : Str) : List Card → FS → Option FS
  | [], fs => some fs
  | c :: rest, fs =>
      match dlCardWrite root c
          (normpath root [str "current", bdn, sub, cardTreeName c]) fs with
      | none => none
      | some fs1 => goCards root bdn sub rest fs1

/-- The open-list loop: create each list directory and store its cards. -/
def goLists (root bdn : Str) : List TList → FS → Option FS
  | [], fs => some fs
  | l :: rest, fs =>
      match mkdirPath root [str "current", bdn, listDirname l] fs with
      | none => none
      | some fs1 =>
          match goCards root bdn (listDirname l) l.cards fs1 with
          | none => none
          | some fs2 => goLists root bdn rest fs2

/-- One board of `retrieve_trello_data`: skip the default board, wipe the
board's `current` directory, store closed cards under a wiped `archives`
subdirectory when present, then walk the open lists.  Returns the final
state (`none` when an exception aborts the run) and the `wipe_dir` calls
issued, as fragment lists. -/
def runBoard (root : Str) (b : Board) (fs : FS) : Option FS × List (List Str) :=
  if b.name = str "Welcome Board" then (some fs, [])
  else
    match wipeDir root [str "current", boardDirname b] fs with
    | none => (none, [[str "current", boardDirname b]])
    | some fs1 =>
        if b.closedCards.isEmpty then
          (goLists root (boardDirname b) b.lists fs1,
           [[str "current", boardDirname b]])
        else
          match wipeDir root
              [str "current", boardDirname b, str "archives"] fs1 with
          | none =>
              (none, [[str "current", boardDirname b],
                      [str "current", boardDirname b, str "archives"]])
          | some fs2 =>
              match goCards root (boardDirname b) (str "archives")
                  b.closedCards fs2 with
              | none =>
                  (none, [[str "current", boardDirname b],
                          [str "current", boardDirname b, str "archives"]])
              | some fs3 =>
                  (goLists root (boardDirname b) b.lists fs3,
                   [[str "current", boardDirname b],
                    [str "current", boardDirname b, str "archives"]])

/-- The board loop of `retrieve_trello_data`. -/
def runBoards (root : Str) : List Board → FS → Option FS × List (List Str)
  | [], fs => (some fs, [])
  | b :: rest, fs =>
      match runBoard root b fs with
      | (none, tr) => (none, tr)
      | (some fs1, tr) =>
          match runBoards root rest fs1 with
          | (res, tr2) => (res, tr ++ tr2)

/-- Model of `retrieve_trello_data()` over the model client data. -/
def retrieveTrelloData (root : Str) (bs : List Board) (fs : FS) :
    Option FS × List (List Str) :=
  runBoards root bs fs

theorem segLe_trans (a b c : SPath) (h1 : SegLe a b) (h2 : SegLe b c) :
    SegLe a c := by
  obtain ⟨r, rfl⟩ := h1
  obtain ⟨s, rfl⟩ := h2
  exact ⟨r ++ s, by simp⟩

theorem segLe_head_eq (a b : Str) (as bs : List Str)
    (h : SegLe (a :: as) (b :: bs)) : a = b := by
  obtain ⟨r, hr⟩ := h
  injection hr with h1 _
  exact h1.symm

theorem append_cons_ne_nil (xs : List Char) (y : Char) (ys : List Char) :
    xs ++ y :: ys ≠ [] := by
  cases xs <;> simp

theorem runBoard_trace (root : Str) (b : Board) (fs : FS) :
    ∀ fr ∈ (runBoard root b fs).2,
      b.name ≠ str "Welcome Board" ∧
      (fr = [str "current", boardDirname b] ∨
       fr = [str "current", boardDirname b, str "archives"]) := by
  intro fr hfr
  unfold runBoard at hfr
  by_cases hw : b.name = str "Welcome Board"
  · rw [if_pos hw] at hfr
    simp at hfr
  · rw [if_neg hw] at hfr
    refine And.intro hw ?_
    split at hfr
    · simp at hfr
      subst hfr
      exact Or.inl rfl
    · split at hfr
      · simp at hfr
        subst hfr
        exact Or.inl rfl
      · split at hfr
        · simp at hfr
          rcases hfr with rfl | rfl
          · exact Or.inl rfl
          · exact Or.inr rfl
        · split at hfr
          · simp at hfr
            rcases hfr with rfl | rfl
            · exact Or.inl rfl
            · exact Or.inr rfl
          · simp at hfr
            rcases hfr with rfl | rfl
            · exact Or.inl rfl
            · exact Or.inr rfl

theorem runBoards_trace (root : Str) : ∀ (bs : List Board) (fs : FS),
    ∀ fr ∈ (runBoards root bs fs).2,
      ∃ b ∈ bs, b.name ≠ str "Welcome Board" ∧
        (fr = [str "current", boardDirname b] ∨
         fr = [str "current", boardDirname b, str "archives"])
  | [], fs => by
      intro fr hfr
      simp [runBoards] at hfr
  | b :: rest, fs => by
      intro fr hfr
      unfold runBoards at hfr
      cases hb : runBoard root b fs with
      | mk res tr =>
          cases res with
          | none =>
              rw [hb] at hfr
              simp only [] at hfr
              have := runBoard_trace root b fs fr (by rw [hb]; exact hfr)
              exact ⟨b, by simp, this⟩
          | some fs1 =>
              rw [hb] at hfr
              simp only [] at hfr
              rcases List.mem_append.mp hfr with h | h
              · have := runBoard_trace root b fs fr (by rw [hb]; exact h)
                exact ⟨b, by simp, this⟩
              · obtain ⟨b2, hb2, hprop⟩ := runBoards_trace root rest fs1 fr h
                exact ⟨b2, List.mem_cons_of_mem _ hb2, hprop⟩

/-- A single wipe preserves the lookup of any path that is neither inside the
wiped subtree nor an ancestor of the wipe target. -/
theorem wipeSegs_preserves (g fs2 : FS) (t q : SPath)
    (h : wipeSegs g t = some fs2) (hq1 : ¬ SegLe t q)
    (hq2 : ∀ a, SegLe a t → a ≠ q) :
    fsLookup fs2 q = fsLookup g q := by
  unfold wipeSegs at h
  set g' : FS := if (fsLookup g t).isSome then
      g.filter (fun p => !(segLeB t p.1)) else g with hg'
  have hpres : fsLookup g' q = fsLookup g q := by
    rw [hg']
    by_cases hsome : (fsLookup g t).isSome
    · rw [if_pos hsome, fsLookup_filterKey (fun k => !(segLeB t k)) g q]
      rw [segLeB_false_of_not t q hq1]
      simp
    · rw [if_neg hsome]
  unfold mkdirSegs at h
  by_cases ht : (fsLookup g' t).isSome
  · rw [if_pos ht] at h
    have := Option.some_inj.mp h
    rw [← this, hpres]
  · rw [if_neg ht] at h
    unfold makedirsSegs at h
    by_cases hall : (properPrefixes t).all (fun a => entryOkDir (fsLookup g' a))
    · rw [if_pos hall] at h
      have hfs2 := Option.some_inj.mp h
      rw [← hfs2]
      rw [List.append_assoc, fsLookup_append]
      cases hval : fsLookup g' q with
      | some e => rw [hpres] at hval; rw [hval]
      | none =>
          rw [hpres] at hval
          rw [hval]
          have hnd : fsLookup (((properPrefixes t).filter
              (fun a => (fsLookup g' a).isNone)).map (fun a => (a, FEntry.dir)) ++
              [(t, FEntry.dir)]) q = none := by
            rw [fsLookup_append]
            have h1 : fsLookup (((properPrefixes t).filter
                (fun a => (fsLookup g' a).isNone)).map
                  (fun a => (a, FEntry.dir))) q = none := by
              refine fsLookup_dirsList _ q ?_
              intro hmem
              have hmem2 := (List.mem_filter.mp hmem).1
              obtain ⟨hle, _, _⟩ := (mem_properPrefixes_iff q t).mp hmem2
              exact hq2 q hle rfl
            rw [h1]
            simp only [fsLookup]
            rw [if_neg (hq2 t (SegLe.refl t))]
          rw [hnd]
    · rw [if_neg hall] at h
      exact Option.noConfusion h

/-- C7: in every run of the sync orchestrator, the destructive `wipe_dir` is
only ever invoked on paths of the form `current/<board>` or
`current/<board>/archives` for an enumerated non-default board — never on a
path under `raw_tickets` — and (for a well-formed root) no such wipe ever
changes any entry under the blob store: blobs are never deleted by the wipe
step. -/
theorem c7_wipe_scope (root : Str) (bs : List Board) (fs : FS) :
    (∀ fr ∈ (retrieveTrelloData root bs fs).2,
      ∃ b ∈ bs, b.name ≠ str "Welcome Board" ∧
        (fr = [str "current", boardDirname b] ∨
         fr = [str "current", boardDirname b, str "archives"])) ∧
    (∀ fr ∈ (retrieveTrelloData root bs fs).2, ∀ g fs2,
      root ≠ [] → root.getLast? ≠ some '/' →
      wipeDir root fr g = some fs2 →
      ∀ q, SegLe (splitC '/' (spaceFix root) ++ [str "raw_tickets"]) q →
        fsLookup fs2 q = fsLookup g q) := by
  refine ⟨runBoards_trace root bs fs, ?_⟩
  intro fr hfr g fs2 hroot hlast hwipe q hq
  obtain ⟨b, _, _, hshape⟩ := runBoards_trace root bs fs fr hfr
  have hfrags : ∀ f ∈ fr, f ≠ [] := by
    rcases hshape with rfl | rfl
    · intro f hf
      rcases List.mem_cons.mp hf with rfl | hf
      · simp [str]
      · rcases List.mem_cons.mp hf with rfl | hf
        · exact append_cons_ne_nil _ _ _
        · simp at hf
    · intro f hf
      rcases List.mem_cons.mp hf with rfl | hf
      · simp [str]
      · rcases List.mem_cons.mp hf with rfl | hf
        · exact append_cons_ne_nil _ _ _
        · rcases List.mem_cons.mp hf with rfl | hf
          · simp [str]
          · simp at hf
  have hsegs := normpath_segments root fr hroot hlast hfrags
  have hcur : spaceFix (slashFix (str "current")) = str "current" := by decide
  have hshape2 : ∃ tail, splitC '/' (normpath root fr) =
      splitC '/' (spaceFix root) ++ str "current" :: tail := by
    rcases hshape with rfl | rfl
    · refine ⟨[spaceFix (slashFix (boardDirname b))], ?_⟩
      rw [hsegs]
      simp [hcur]
    · refine ⟨[spaceFix (slashFix (boardDirname b)),
        spaceFix (slashFix (str "archives"))], ?_⟩
      rw [hsegs]
      simp [hcur]
  obtain ⟨tail, htail⟩ := hshape2
  unfold wipeDir at hwipe
  refine wipeSegs_preserves g fs2 _ q hwipe ?_ ?_
  · rw [htail]
    intro hle
    have := segLe_total_of_common q _ _ hle hq
    rcases this with h | h
    · rw [segLe_cancel] at h
      have := segLe_head_eq _ _ _ _ h
      exact absurd this (by decide)
    · rw [segLe_cancel] at h
      have := segLe_head_eq _ _ _ _ h
      exact absurd this (by decide)
  · rw [htail]
    intro a hle heq
    rw [heq] at hle
    have h2 := segLe_trans _ _ _ hq hle
    rw [segLe_cancel] at h2
    have := segLe_head_eq _ _ _ _ h2
    exact absurd this (by decide)

/-- A concrete non-default board with no cards. -/
def bW7 : Board := { id := str "b1", name := str "B", closedCards := [], lists := [] }

/-- The state after wiping `current/b1_B` inside an empty filesystem. -/
def fs2W : FS :=
  [([str "results"], FEntry.dir),
   ([str "results", str "current"], FEntry.dir),
   ([str "results", str "current", str "b1_B"], FEntry.dir)]

/-- Witness for C7: the single wipe of a one-board run is scoped to
`current/<board>` and leaves a blob-store path untouched. -/
theorem c7_wipe_scope_witness :
    (∃ b ∈ [bW7], b.name ≠ str "Welcome Board" ∧
      ([str "current", boardDirname bW7] = [str "current", boardDirname b] ∨
       [str "current", boardDirname bW7] =
         [str "current", boardDirname b, str "archives"])) ∧
    fsLookup fs2W [str "results", str "raw_tickets", str "x.yaml"] =
      fsLookup ([] : FS) [str "results", str "raw_tickets", str "x.yaml"] :=
  ⟨(c7_wipe_scope (str "results") [bW7] []).1
      [str "current", boardDirname bW7] (by decide),
   (c7_wipe_scope (str "results") [bW7] []).2
      [str "current", boardDirname bW7] (by decide) [] fs2W (by decide)
      (by decide) (by decide) [str "results", str "raw_tickets", str "x.yaml"]
      ((segLeB_iff _ _).mp (by decide))⟩

/-- The C4 scenario: one board with one list containing one card. -/
def boardC4 : Board :=
  { id := str "b1"
    name := str "Board"
    closedCards := []
    lists := [{ id := str "l1", name := str "Todo", cards := [cardW] }] }

/-- The C4 initial state: a cloned backup repository whose working tree
already holds the results root and the blob store directory. -/
def fsC4Init : FS :=
  [([str "results"], FEntry.dir), ([str "results", str "raw_tickets"], FEntry.dir)]

/-- The final state of the C4 scenario run. -/
def runC4 : Option FS := (retrieveTrelloData (str "results") [boardC4] fsC4Init).1

/-- All symlink entries strictly under a directory, with their targets. -/
def symlinksUnder (fs : FS) (a : SPath) : List (SPath × Str) :=
  fs.filterMap (fun p =>
    match p.2 with
    | FEntry.symlink tgt => if segBelowB a p.1 then some (p.1, tgt) else none
    | _ => none)

/-- Resolve a relative symlink target against the link's parent directory. -/
def resolveLink (linkKey : SPath) (tgt : Str) : SPath :=
  (splitC '/' tgt).foldl
    (fun acc s => if s = str ".." then acc.dropLast else acc ++ [s])
    linkKey.dropLast

/-- Filename stem (the part before the first dot). -/
def stemOf (s : Str) : Str := s.takeWhile (fun c => decide (c ≠ '.'))

/-- Does the entry's filename end in the given extension? -/
def endsWithExt (ext : Str) (p : SPath) : Bool :=
  match p.getLast? with
  | some fn => List.isSuffixOf ext fn
  | none => false

/-- A tree entry is sound for a card: its target resolves to an existing
regular file under the blob store whose filename stem is the card's id. -/
def linkOk (fsF : FS) (cardId : Str) (pt : SPath × Str) : Bool :=
  (match fsLookup fsF (resolveLink pt.1 pt.2) with
   | some (FEntry.file _) => true
   | _ => false) &&
  segBelowB [str "results", str "raw_tickets"] (resolveLink pt.1 pt.2) &&
  decide ((resolveLink pt.1 pt.2).getLast?.map stemOf = some cardId)

/-- C4: after a full sync of a board with one list containing one card, the
current-view tree holds exactly one `.yaml` and one `.txt` symlink, and every
tree entry resolves (through its relative target) to exactly one existing
stored-record blob under `raw_tickets` whose filename stem is the card's
id. -/
theorem c4_link_integrity :
    runC4.map (fun fsF =>
      (((symlinksUnder fsF [str "results", str "current"]).filter
          (fun pt => endsWithExt (str ".yaml") pt.1)).length,
       ((symlinksUnder fsF [str "results", str "current"]).filter
          (fun pt => endsWithExt (str ".txt") pt.1)).length,
       (symlinksUnder fsF [str "results", str "current"]).all
         (fun pt => linkOk fsF (str "c1") pt))) = some (1, 1, true) := by
  decide

end Trellobackup
